import Mathlib

/-!
Verification of the pdm player-decision-modelling engine.

This file gives a shallow embedding, in Lean 4, of the parts of the pdm
repository needed to settle the frozen claims: the bucketed abstract scalar
types (base_types.py), the choice/option/outcome data model (choice.py),
the mode-of-engagement model and its operations (engagement.py), the
player-model construction and priority synthesis (player.py), the Utilizing
decision strategy (decision.py), the key-conforming utility (utils.py) and
the per-choice consistency combiner (analyze_traces.py).

Numbers are embedded as rationals (the Python code computes with floats but
every constant involved is a small decimal, so the arithmetic is exact).
Python dictionaries are embedded as association lists in insertion order;
fallible operations return `Except String` or `Option`.
-/

namespace PDM

/-! ### Association-list helpers (Python `dict` as insertion-ordered assoc list) -/

/-- Look up the value bound to a key, mirroring `d[k]` / `k in d`. -/
def alookup {β : Type} (l : List (String × β)) (k : String) : Option β :=
  match l with
  | [] => none
  | (k', v) :: rest => if k' = k then some v else alookup rest k

/-- The keys of a dictionary, in insertion order. -/
def akeys {β : Type} (l : List (String × β)) : List String :=
  l.map Prod.fst

/-- Membership test, mirroring Python `k in d`. -/
def amem {β : Type} (l : List (String × β)) (k : String) : Bool :=
  (alookup l k).isSome

/-- Replace the value bound to an existing key (Python `d[k] = v` when the
key is already present: position in iteration order is preserved). -/
def aset {β : Type} (l : List (String × β)) (k : String) (v : β) :
    List (String × β) :=
  match l with
  | [] => []
  | (k', v') :: rest =>
    if k' = k then (k', v) :: rest else (k', v') :: aset rest k v

/-- Delete a key (Python `del d[k]`; keys are unique so at most one entry
is removed). -/
def adel {β : Type} (l : List (String × β)) (k : String) : List (String × β) :=
  match l with
  | [] => []
  | (k', v') :: rest =>
    if k' = k then rest else (k', v') :: adel rest k

/-! ### base_types.py — abstract scalar types with named buckets

The source defines three bounded scalar families, each with a family of
named singleton subclasses registered on the parent class: Certainty
(probability-like, buckets impossible/inconceivable/unlikely/even/likely/
certain/inviolable), Valence (goodness, buckets awful/bad/unpleasant/
neutral/okay/good/wonderful) and Visibility (apparentness, buckets
invisible/hinted/implicit/explicit; the rest of the code refers to this
type as Salience).  Each family has an `abstract` function mapping an
in-range value to a bucket via an if/elif chain of ranges. -/

/-- The named Certainty buckets (subclasses of Certainty in base_types.py). -/
inductive CertaintyBucket where
  | impossible | inconceivable | unlikely | even | likely | certain | inviolable
  deriving DecidableEq, Repr

/-- Representative probability of each Certainty bucket, as passed to the
`super().__init__` call of each subclass. -/
def CertaintyBucket.value : CertaintyBucket → ℚ
  | .impossible => 0
  | .inconceivable => 1/1000
  | .unlikely => 1/5
  | .even => 1/2
  | .likely => 4/5
  | .certain => 999/1000
  | .inviolable => 1

/-- The lowercase class name under which each bucket is registered on the
Certainty class by `super_class_property`. -/
def CertaintyBucket.bname : CertaintyBucket → String
  | .impossible => "impossible"
  | .inconceivable => "inconceivable"
  | .unlikely => "unlikely"
  | .even => "even"
  | .likely => "likely"
  | .certain => "certain"
  | .inviolable => "inviolable"

/-- `Certainty.abstract` from base_types.py: maps a probability to one of
the fixed buckets via the source's if/elif range chain (0.05 = 1/20,
0.45 = 9/20, 0.55 = 11/20, 0.95 = 19/20), raising ValueError outside. -/
def Certainty.abstract (p : ℚ) : Except String CertaintyBucket :=
  if 0 ≤ p ∧ p < 1/20 then .ok .impossible
  else if 1/20 ≤ p ∧ p < 9/20 then .ok .unlikely
  else if 9/20 ≤ p ∧ p ≤ 11/20 then .ok .even
  else if 11/20 < p ∧ p ≤ 19/20 then .ok .likely
  else if 19/20 < p ∧ p ≤ 1 then .ok .certain
  else .error "Cannot find an abstract certainty from invalid probability."

/-- The named Valence buckets (subclasses of Valence in base_types.py). -/
inductive ValenceBucket where
  | awful | bad | unpleasant | neutral | okay | good | wonderful
  deriving DecidableEq, Repr

/-- Representative value of each Valence bucket. -/
def ValenceBucket.value : ValenceBucket → ℚ
  | .awful => -19/20
  | .bad => -3/5
  | .unpleasant => -1/5
  | .neutral => 0
  | .okay => 1/5
  | .good => 3/5
  | .wonderful => 19/20

/-- The lowercase registered name of each Valence bucket. -/
def ValenceBucket.bname : ValenceBucket → String
  | .awful => "awful"
  | .bad => "bad"
  | .unpleasant => "unpleasant"
  | .neutral => "neutral"
  | .okay => "okay"
  | .good => "good"
  | .wonderful => "wonderful"

/-- `Valence.abstract` from base_types.py (range boundaries -0.8, -0.35,
-0.05, 0.05, 0.35, 0.8 embedded as exact rationals). -/
def Valence.abstract (v : ℚ) : Except String ValenceBucket :=
  if -1 ≤ v ∧ v < -4/5 then .ok .awful
  else if -4/5 ≤ v ∧ v < -7/20 then .ok .bad
  else if -7/20 ≤ v ∧ v < -1/20 then .ok .unpleasant
  else if -1/20 ≤ v ∧ v ≤ 1/20 then .ok .neutral
  else if 1/20 < v ∧ v ≤ 7/20 then .ok .okay
  else if 7/20 < v ∧ v ≤ 4/5 then .ok .good
  else if 4/5 < v ∧ v ≤ 1 then .ok .wonderful
  else .error "Cannot find an abstract valence from invalid value."

/-- The named Visibility buckets (subclasses of Visibility in base_types.py;
this is the type the spec calls Salience). -/
inductive VisibilityBucket where
  | invisible | hinted | implicit | explicit
  deriving DecidableEq, Repr

/-- Representative value of each Visibility bucket. -/
def VisibilityBucket.value : VisibilityBucket → ℚ
  | .invisible => 0
  | .hinted => 3/10
  | .implicit => 7/10
  | .explicit => 1

/-- The lowercase registered name of each Visibility bucket. -/
def VisibilityBucket.bname : VisibilityBucket → String
  | .invisible => "invisible"
  | .hinted => "hinted"
  | .implicit => "implicit"
  | .explicit => "explicit"

/-- `Visibility.abstract` from base_types.py (boundaries 0.05, 0.5, 0.9). -/
def Visibility.abstract (v : ℚ) : Except String VisibilityBucket :=
  if 0 ≤ v ∧ v < 1/20 then .ok .invisible
  else if 1/20 ≤ v ∧ v < 1/2 then .ok .hinted
  else if 1/2 ≤ v ∧ v < 9/10 then .ok .implicit
  else if 9/10 ≤ v ∧ v ≤ 1 then .ok .explicit
  else .error "Cannot find an abstract visibility from invalid value."

/-! ### choice.py — Outcome, Option, Choice -/

/-- `Outcome` from choice.py.  `Outcome.__init__` sets exactly the
attributes `name`, `goal_effects` (goal name to Valence value),
`salience`, `apparent_likelihood` and `actual_likelihood` (the
constructor defaults `actual_likelihood` to `apparent_likelihood` when it
is omitted; we embed the already-constructed object). -/
structure Outcome where
  name : String
  goal_effects : List (String × ℚ)
  salience : ℚ
  apparent_likelihood : ℚ
  actual_likelihood : ℚ
  deriving DecidableEq, Repr

/-- Python attribute lookup of `probability` on an Outcome.
`Outcome.__init__` defines only the five attributes listed above and the
class defines no `probability` attribute and no `__getattr__`, so the
expression `out.probability` in `Option.sample_outcomes` raises
AttributeError; the failed lookup is embedded as `none`. -/
def Outcome.attr_probability (_o : Outcome) : Option ℚ :=
  none

/-- `Option` from choice.py (renamed: `Option` collides with the Lean core
type).  `outcomes` is the dict mapping outcome names to Outcome objects in
insertion order. -/
structure COption where
  name : String
  outcomes : List (String × Outcome)
  deriving DecidableEq, Repr

/-- The loop body of `Option.sample_outcomes`: for each outcome, draw
`r = random.uniform(0.0, 1.0)` (the draws are injected, one per outcome in
iteration order) and include the outcome when `r < out.probability`.
Reading `out.probability` is an attribute lookup that fails (see
`Outcome.attr_probability`), which aborts the call. -/
def sample_outcomes_loop :
    List (String × Outcome) → List ℚ → Except String (List (String × Outcome))
  | [], _ => .ok []
  | (o, out) :: rest, draws =>
    let r := draws.headD 0
    match out.attr_probability with
    | none => .error "AttributeError: Outcome object has no attribute probability"
    | some p =>
      match sample_outcomes_loop rest draws.tail with
      | .error e => .error e
      | .ok results => .ok (if r < p then (o, out) :: results else results)

/-- `Option.sample_outcomes` from choice.py: samples a set of outcomes.
The uniform draws are injected for reproducibility. -/
def COption.sample_outcomes (opt : COption) (draws : List ℚ) :
    Except String (List (String × Outcome)) :=
  sample_outcomes_loop opt.outcomes draws

/-- `Choice` from choice.py: a name plus a dict of options by name. -/
structure Choice where
  name : String
  options : List (String × COption)
  deriving DecidableEq, Repr

/-! ### perception.py — prospective impressions

perception.py is not part of src/ (only its importers are), so the
`Prospective` record and its `utility()` method are modelled from the
spec. -/

/-- Modelled from the spec: perception.py is missing from src/.  A
prospective impression is "a forecasted (valence, certainty, salience)
triple for one goal from one outcome" (§3/§4.2: goal, choice, option,
valence = outcome's effect, certainty = outcome's apparent certainty,
salience = outcome's salience; the choice/option back-references play no
role in scoring and are omitted per §9's acyclic-ownership note). -/
structure Prospective where
  goal : String
  valence : ℚ
  certainty : ℚ
  salience : ℚ
  deriving DecidableEq, Repr

/-- Modelled from the spec: `Prospective.utility()` (perception.py, missing
from src/) as used by `Utilizing.rank_options`; §4.4 gives each
impression's utility contribution as impression.valence ×
impression.certainty. -/
def Prospective.utility (p : Prospective) : ℚ :=
  p.valence * p.certainty

/-- A decision model: option name → goal name → ordered list of
prospective impressions (the structure built by
`ModeOfEngagement.build_decision_model`). -/
abbrev DecisionModel : Type :=
  List (String × List (String × List Prospective))

/-! ### decision.py — Decision and the decision strategies -/

/-- `Decision` from decision.py, restricted to the fields the decision
strategies read: the choice, the chosen option (by name; `None` before a
pick), the prospective impressions (`None` before
`add_prospective_impressions`) and the goal relevance map.
`goal_relevance` is assigned together with `prospective_impressions`; the
embedding stores the attached map (empty when no goal has an entry). -/
structure Decision where
  choice : Choice
  option : Option String
  prospective_impressions : Option DecisionModel
  goal_relevance : List (String × ℚ)

/-- Python truthiness of `decision.prospective_impressions`: falsy when the
field is `None` or the dict is empty. -/
def truthyImpressions : Option DecisionModel → Bool
  | none => false
  | some dm => !dm.isEmpty

namespace Utilizing

/-- `Utilizing.value_resolution` (0.09): utilities closer than this are
considered indistinguishable unless separated by the zero boundary. -/
def value_resolution : ℚ := 9/100

/-- The inner accumulation of `Utilizing.rank_options` for one option:
starting from `utilities[opt] = 0`, add
`pri.utility() * (goal_relevance[goal] if goal in goal_relevance else 1)`
for every goal of the option's decision model and every prospective
impression of that goal. -/
def optUtility (goal_relevance : List (String × ℚ))
    (gm : List (String × List Prospective)) : ℚ :=
  gm.foldl (fun acc gp =>
    gp.2.foldl (fun a pri =>
      a + pri.utility * ((alookup goal_relevance gp.1).getD 1)) acc) 0

/-- The utility map of `Utilizing.rank_options`: one entry per option of
the decision model, in iteration order. -/
def utilities (dm : List (String × List (String × List Prospective)))
    (goal_relevance : List (String × ℚ)) : List (String × ℚ) :=
  dm.map (fun og => (og.1, optUtility goal_relevance og.2))

/-- The `while i < len(strict) - 1` merge loop of `Utilizing.rank_options`.
At the current position it compares the two adjacent levels: if they lie on
opposite sides of the zero boundary it advances; if their difference is
below `value_resolution` it pops the upper level, averages the two values,
appends the popped option names after the lower level's names, and
re-compares the freshly merged level at the same position; otherwise it
advances. -/
def mergeLevels : List (ℚ × List String) → List (ℚ × List String)
  | [] => []
  | [x] => [x]
  | (u1, o1) :: (u2, o2) :: rest =>
    if (u1 > 0 ∧ u2 ≤ 0) ∨ (u1 ≥ 0 ∧ u2 < 0) then
      (u1, o1) :: mergeLevels ((u2, o2) :: rest)
    else if u1 - u2 < value_resolution then
      mergeLevels (((u1 + u2) / 2, o2 ++ o1) :: rest)
    else
      (u1, o1) :: mergeLevels ((u2, o2) :: rest)
termination_by l => l.length

/-- The pre-merge equivalence classes of `Utilizing.rank_options`:
`ulevels = reversed(sorted(utilities.values()))` (duplicated values are
kept) and `strict = [[u, [gn for (gn, uv) in utilities.items() if uv == u]]
for u in ulevels]`. -/
def strictLevels (us : List (String × ℚ)) : List (ℚ × List String) :=
  ((us.map Prod.snd).insertionSort (· ≤ ·)).reverse.map (fun u =>
    (u, us.filterMap (fun p => if p.2 = u then some p.1 else none)))

/-- `Utilizing.rank_options` from decision.py: requires truthy prospective
impressions, computes per-option utilities, groups options into descending
utility levels and merges adjacent levels via `mergeLevels`. -/
def rank_options (d : Decision) : Except String (List (ℚ × List String)) :=
  match d.prospective_impressions with
  | none => .error "Cannot rank options until prospective impressions have been added."
  | some dm =>
    if dm.isEmpty then
      .error "Cannot rank options until prospective impressions have been added."
    else
      .ok (mergeLevels (strictLevels (utilities dm d.goal_relevance)))

/-- `Utilizing.decide` from decision.py: requires truthy prospective
impressions (checked by `rank_options` under the same condition as its own
guard) and returns a random member of the top equivalence class
(`random.choice`'s index is injected; it raises IndexError on an empty
sequence). -/
def decide (d : Decision) (k : ℕ) : Except String String :=
  match rank_options d with
  | .error e => .error e
  | .ok [] => .error "IndexError: ranked options list is empty"
  | .ok ((_, best) :: _) =>
    if best.isEmpty then .error "IndexError: cannot choose from an empty sequence"
    else .ok (best.getD (k % best.length) "")

/-- The `for u, ol in ranked` scan of `Utilizing.consistency`: the first
equivalence class containing the chosen option's name supplies
`chosen_utility`. -/
def findChosen (ranked : List (ℚ × List String)) (n : String) : Option ℚ :=
  match ranked.find? (fun p => p.2.contains n) with
  | some p => some p.1
  | none => none

/-- `Utilizing.consistency` from decision.py: requires a chosen option and
truthy prospective impressions; takes `best_utility = ranked[0][0]`,
`worst_utility = ranked[-1][0]`, `lower_bound = -0.5 + worst_utility / 2`,
locates the chosen option's class (RuntimeError when absent), and returns
1.0 when `best_utility - lower_bound == 0`, else the linear rescaling
`(chosen_utility - lower_bound) / (best_utility - lower_bound)`. -/
def consistency (d : Decision) : Except String ℚ :=
  match d.option with
  | none => .error "Cannot compute decision consistency before an option has been selected."
  | some chosen_name =>
    if !truthyImpressions d.prospective_impressions then
      .error "Cannot compute decision consistency before prospective impressions are added."
    else
      match rank_options d with
      | .error e => .error e
      | .ok [] => .error "IndexError: ranked options list is empty"
      | .ok (ranked@((best_utility, _) :: _)) =>
        let worst_utility := (ranked.getLast?.map Prod.fst).getD best_utility
        let lower_bound : ℚ := -1/2 + worst_utility / 2
        match findChosen ranked chosen_name with
        | none => .error "RuntimeError: selected option was not found among ranked options"
        | some chosen_utility =>
          let denom := best_utility - lower_bound
          if denom = 0 then .ok 1
          else .ok ((chosen_utility - lower_bound) / denom)

end Utilizing

namespace Maximizing

/-- `Maximizing.decide` from decision.py: raises ValueError when
prospective impressions are not truthy; the body beyond the guard is an
unimplemented TODO, so a successful call returns Python `None` (embedded
as `.ok none`). -/
def decide (d : Decision) : Except String (Option String) :=
  if !truthyImpressions d.prospective_impressions then
    .error "Cannot make a decision until prospective impressions have been added."
  else
    .ok none

end Maximizing

namespace Satisficing

/-- `Satisficing.decide` from decision.py: same guard as
`Maximizing.decide`, body unimplemented. -/
def decide (d : Decision) : Except String (Option String) :=
  if !truthyImpressions d.prospective_impressions then
    .error "Cannot make a decision until prospective impressions have been added."
  else
    .ok none

end Satisficing

namespace Randomizing

/-- `Randomizing.decide` from decision.py: returns
`random.choice(list(decision.choice.options.keys()))` with no precondition
check at all (the injected index stands for the random draw;
`random.choice` raises IndexError on an empty sequence). -/
def decide (d : Decision) (k : ℕ) : Except String String :=
  let names := akeys d.choice.options
  if names.isEmpty then .error "IndexError: cannot choose from an empty sequence"
  else .ok (names.getD (k % names.length) "")

/-- `Randomizing.consistency` from decision.py: requires a chosen option
and truthy prospective impressions, then always returns 1.0. -/
def consistency (d : Decision) : Except String ℚ :=
  match d.option with
  | none => .error "Cannot compute decision consistency before an option has been selected."
  | some _ =>
    if !truthyImpressions d.prospective_impressions then
      .error "Cannot compute decision consistency before prospective impressions are added."
    else
      .ok 1

end Randomizing

/-! ### utils.py — conform_keys -/

/-- Python `d[k] = v`: overwrite in place when the key exists, append
otherwise. -/
def dictSet {β : Type} (l : List (String × β)) (k : String) (v : β) :
    List (String × β) :=
  if amem l k then aset l k v else l ++ [(k, v)]

/-- Key set of a Python dict built from a list with repeated assignment
`d[x] = ...`: first occurrence fixes the position, later duplicates
overwrite the value only. -/
def dedupKeepFirst : List String → List String
  | [] => []
  | k :: rest => k :: dedupKeepFirst (rest.filter (fun x => x ≠ k))
termination_by l => l.length
decreasing_by
  exact Nat.lt_succ_of_le (List.length_filter_le _ _)

/-- `conform_keys` from utils.py.  The source iterates over the suspect
dict's keys and executes `raise RuntimeWarning(message.format(k))` at the
first key missing from `valid` — the raise aborts the call (the
`toremove.add(k)` after it is unreachable), so a spurious key is an error,
not a pruned-with-warning entry.  When no key is spurious and a default is
given (`none` embeds NoDefault), every key of `valid` missing from
`suspect` is bound to the default. -/
def conform_keys {β : Type} (valid : List String) (suspect : List (String × β))
    (default : Option β) : Except String (List (String × β)) :=
  match suspect.find? (fun p => !valid.contains p.1) with
  | some p => .error ("RuntimeWarning: spurious key " ++ p.1)
  | none =>
    match default with
    | none => .ok suspect
    | some d =>
      .ok ((valid.filter (fun k => !amem suspect k)).foldl
        (fun acc k => dictSet acc k d) suspect)

/-! ### engagement.py — ModeOfEngagement -/

/-- `DEFAULT_PRIORITY` from engagement.py. -/
def DEFAULT_PRIORITY : Int := 5

/-- `ModeOfEngagement` from engagement.py: a name, a dict of goals by name
(each value is the interned PlayerGoal of that name, so the key list
carries all the information) and a dict of integer priorities by goal
name. -/
structure ModeOfEngagement where
  name : String
  goals : List String
  priorities : List (String × Int)
  deriving DecidableEq, Repr

/-- `ModeOfEngagement.__init__`: registers the listed goals by name
(duplicated names collapse onto the first occurrence) and conforms the
priority dict to the goal names with `conform_keys` and
`DEFAULT_PRIORITY` as the default (so a priority entry for an absent goal
aborts construction, see `conform_keys`). -/
def ModeOfEngagement.init (name : String) (goal_list : List String)
    (priorities : List (String × Int)) : Except String ModeOfEngagement :=
  let goals := dedupKeepFirst goal_list
  match conform_keys goals priorities (some DEFAULT_PRIORITY) with
  | .error e => .error e
  | .ok ps => .ok ⟨name, goals, ps⟩

/-- `ModeOfEngagement.add_goal`: ValueError when a goal of that name is
already present, otherwise inserts the goal and its priority. -/
def ModeOfEngagement.add_goal (m : ModeOfEngagement) (goal : String)
    (priority : Int) : Except String ModeOfEngagement :=
  if m.goals.contains goal then
    .error "ValueError: a goal with that name is already part of that mode"
  else
    .ok ⟨m.name, m.goals ++ [goal], dictSet m.priorities goal priority⟩

/-- `ModeOfEngagement.remove_goal`: KeyError when absent, otherwise deletes
the goal and its priority entry. -/
def ModeOfEngagement.remove_goal (m : ModeOfEngagement) (goal_name : String) :
    Except String ModeOfEngagement :=
  if !m.goals.contains goal_name then
    .error "KeyError: attempted to remove a goal which is not part of this mode"
  else
    .ok ⟨m.name, m.goals.erase goal_name, adel m.priorities goal_name⟩

/-- `ModeOfEngagement.get_priority`: the priority of the named goal, or
KeyError. -/
def ModeOfEngagement.get_priority (m : ModeOfEngagement) (goal_name : String) :
    Option Int :=
  alookup m.priorities goal_name

/-- `ModeOfEngagement.set_priority`: overwrites the priority of an existing
goal (KeyError when the goal has no priority entry). -/
def ModeOfEngagement.set_priority (m : ModeOfEngagement) (goal_name : String)
    (priority : Int) : Except String ModeOfEngagement :=
  if amem m.priorities goal_name then
    .ok ⟨m.name, m.goals, aset m.priorities goal_name priority⟩
  else
    .error "KeyError: attempted to set priority of a goal not included in this mode"

/-- The invariant claimed for ModeOfEngagement: the key set of the
priorities dict is exactly the goal set. -/
def keysMatch (m : ModeOfEngagement) : Prop :=
  ∀ g, g ∈ m.goals ↔ g ∈ akeys m.priorities

/-! ### player.py — PlayerModel construction and priority synthesis -/

/-- The `max_priority_so_far` update of `_synthesize_moe`: replace it by
the candidate when it is still `None` or smaller than the candidate. -/
def updateMax (maxp : Option Int) (adjp : Int) : Int :=
  match maxp with
  | none => adjp
  | some mx => if mx < adjp then adjp else mx

/-- One iteration of the `for gn in mg` loop of
`PlayerModel._synthesize_moe`: compute the candidate priority (the
override value when the goal has one, otherwise
`base + mode priority + mode adjustment + goal adjustment`), keep the
minimum when the goal is already in the synthesized mode, insert it
otherwise, and fold the candidate into `max_priority_so_far`.  `none`
embeds an uncaught KeyError from the dict lookups. -/
def synthGoal (base madj : Int) (moe : ModeOfEngagement)
    (gadj gover : List (String × Int))
    (st : ModeOfEngagement × Option Int) (gn : String) :
    Option (ModeOfEngagement × Option Int) :=
  let adjpO : Option Int :=
    match alookup gover gn with
    | some ov => some ov
    | none =>
      match moe.get_priority gn, alookup gadj gn with
      | some p, some ga => some (base + p + madj + ga)
      | _, _ => none
  match adjpO with
  | none => none
  | some adjp =>
    let st1 : Option ModeOfEngagement :=
      if st.1.goals.contains gn then
        match st.1.get_priority gn with
        | none => none
        | some cur =>
          if adjp < cur then
            match st.1.set_priority gn adjp with
            | .ok m => some m
            | .error _ => none
          else some st.1
      else
        match st.1.add_goal gn adjp with
        | .ok m => some m
        | .error _ => none
    match st1 with
    | none => none
    | some synth => some (synth, some (updateMax st.2 adjp))

/-- The `for gn in mg` loop over one mode's goals. -/
def synthGoals (base madj : Int) (moe : ModeOfEngagement)
    (gadj gover : List (String × Int)) :
    List String → ModeOfEngagement × Option Int →
    Option (ModeOfEngagement × Option Int)
  | [], st => some st
  | gn :: rest, st =>
    match synthGoal base madj moe gadj gover st gn with
    | none => none
    | some st' => synthGoals base madj moe gadj gover rest st'

/-- The `for mn in modes_here` loop: look up the mode and its adjustment,
then process its goals. -/
def synthModes (base : Int) (modes : List (String × ModeOfEngagement))
    (madjs gadj gover : List (String × Int)) :
    List String → ModeOfEngagement × Option Int →
    Option (ModeOfEngagement × Option Int)
  | [], st => some st
  | mn :: rest, st =>
    match alookup modes mn, alookup madjs mn with
    | some moe, some madj =>
      match synthGoals base madj moe gadj gover moe.goals st with
      | none => none
      | some st' => synthModes base modes madjs gadj gover rest st'
    | _, _ => none

/-- One rank of `_synthesize_moe`: gather the modes ranked at `mr` (in the
ranking dict's iteration order), process them, and advance the base to
`max_priority_so_far + 1` (when a rank contributed no candidate at all,
`max_priority_so_far` is still `None` and the Python `None + 1` raises,
embedded as `none`). -/
def synthRank (modes : List (String × ModeOfEngagement))
    (mode_ranking madjs gadj gover : List (String × Int))
    (base : Int) (synth : ModeOfEngagement) (mr : Int) :
    Option (ModeOfEngagement × Int) :=
  let modes_here := (mode_ranking.filter (fun p => p.2 = mr)).map Prod.fst
  match synthModes base modes madjs gadj gover modes_here (synth, none) with
  | none => none
  | some (synth', maxp) =>
    match maxp with
    | none => none
    | some m => some (synth', m + 1)

/-- The outer loop of `_synthesize_moe` over the sorted distinct rank
values, threading `current_base_prioity` (the final base is carried along
with the synthesized mode so runs over consecutive rank sublists
compose). -/
def synthRanks (modes : List (String × ModeOfEngagement))
    (mode_ranking madjs gadj gover : List (String × Int)) :
    List Int → Int → ModeOfEngagement → Option (ModeOfEngagement × Int)
  | [], base, synth => some (synth, base)
  | mr :: rest, base, synth =>
    match synthRank modes mode_ranking madjs gadj gover base synth mr with
    | none => none
    | some (synth', base') =>
      synthRanks modes mode_ranking madjs gadj gover rest base' synth'

/-- `PlayerModel._synthesize_moe` from player.py: starts from a fresh empty
synthesized mode and base priority 0, and processes the distinct mode
ranking values in ascending order (`sorted(list(set(...)))`). -/
def synthesize_moe (pname : String)
    (modes : List (String × ModeOfEngagement))
    (mode_ranking madjs gadj gover : List (String × Int)) :
    Option ModeOfEngagement :=
  let ranks := ((mode_ranking.map Prod.snd).dedup).insertionSort (· ≤ ·)
  (synthRanks modes mode_ranking madjs gadj gover ranks 0
    ⟨pname ++ "-synthesized", [], []⟩).map Prod.fst

/-- `PlayerModel` from player.py, restricted to the fields the claims are
about (the decision and priority method objects take no part in
construction-time conforming or synthesis). -/
structure PlayerModel where
  name : String
  modes : List (String × ModeOfEngagement)
  mode_ranking : List (String × Int)
  mode_adjustments : List (String × Int)
  goal_adjustments : List (String × Int)
  goal_overrides : List (String × Int)
  synthesized : ModeOfEngagement

/-- `PlayerModel.__init__` from player.py: each of the four configuration
dicts (`None`, embedded as `none`, or falsy-empty selects the documented
default) is conformed with `conform_keys` against the mode-name set or the
union of all goal names; construction ends with `_synthesize_moe`. -/
def PlayerModel.init (name : String)
    (modes : List (String × ModeOfEngagement))
    (mode_ranking mode_adjustments goal_adjustments goal_overrides :
      Option (List (String × Int))) : Except String PlayerModel :=
  let all_mode_names := akeys modes
  let mr0 := match mode_ranking with
    | none => all_mode_names.map (fun m => (m, DEFAULT_PRIORITY))
    | some r =>
      if r.isEmpty then all_mode_names.map (fun m => (m, DEFAULT_PRIORITY))
      else r
  match conform_keys all_mode_names mr0 (some DEFAULT_PRIORITY) with
  | .error e => .error e
  | .ok mr =>
    let ma0 := match mode_adjustments with
      | none => all_mode_names.map (fun m => (m, (0 : Int)))
      | some a =>
        if a.isEmpty then all_mode_names.map (fun m => (m, (0 : Int)))
        else a
    match conform_keys all_mode_names ma0 (some 0) with
    | .error e => .error e
    | .ok ma =>
      let all_goal_names := dedupKeepFirst (modes.flatMap (fun p => p.2.goals))
      let ga0 := match goal_adjustments with
        | none => all_goal_names.map (fun g => (g, (0 : Int)))
        | some a =>
          if a.isEmpty then all_goal_names.map (fun g => (g, (0 : Int)))
          else a
      match conform_keys all_goal_names ga0 (some 0) with
      | .error e => .error e
      | .ok ga =>
        let go0 := (goal_overrides.getD [])
        match conform_keys all_goal_names go0 none with
        | .error e => .error e
        | .ok go =>
          match synthesize_moe name modes mr ma ga go with
          | none => .error "uncaught exception during _synthesize_moe"
          | some s => .ok ⟨name, modes, mr, ma, ga, go, s⟩

/-! ### analyze_traces.py — combine_per_choice -/

/-- A per-choice consistency breakdown: choice name → (observation count,
model name → mean consistency). -/
abbrev Breakdown : Type :=
  List (String × (ℚ × List (String × ℚ)))

/-- `True` when two averages dicts bind exactly the same key set
(`set(a.keys()) == set(b.keys())`). -/
def sameKeySet (a b : List (String × ℚ)) : Bool :=
  a.all (fun p => amem b p.1) && b.all (fun p => amem a p.1)

/-- The dict comprehension building `new_averages` in
`combine_per_choice`: iterates over the keys of `old_averages` and reads
`other_averages[pmn]`, so a model present in `old` but missing from
`other` raises KeyError (embedded as `none`), while extra models in
`other` are silently dropped. -/
def buildAverages (old_averages other_averages : List (String × ℚ))
    (old_weight other_weight nw : ℚ) : Option (List (String × ℚ)) :=
  match old_averages with
  | [] => some []
  | (pmn, ov) :: rest =>
    match alookup other_averages pmn with
    | none => none
    | some xv =>
      match buildAverages rest other_averages old_weight other_weight nw with
      | none => none
      | some tl => some ((pmn, (ov * old_weight + xv * other_weight) / nw) :: tl)

/-- The `for key in other` loop of `combine_per_choice`, with the
`new_averages` accumulator threaded through exactly as in the source: the
model-set guard compares `old_averages` against the *accumulator from the
previous merged key* (`new_averages`, initially `None`), not against the
incoming `other_averages`. -/
def combine_loop :
    List (String × (ℚ × List (String × ℚ))) → Breakdown →
    Option (List (String × ℚ)) → Except String Breakdown
  | [], result, _ => .ok result
  | (key, (ow, oa)) :: rest, result, new_averages =>
    match alookup result key with
    | none => combine_loop rest (result ++ [(key, (ow, oa))]) new_averages
    | some (old_weight, old_averages) =>
      let mismatch := match new_averages with
        | none => false
        | some na => !na.isEmpty && !(sameKeySet old_averages na)
      if mismatch then
        .error "ValueError: cannot combine per-choice results which used different sets of player models"
      else
        let nw := old_weight + ow
        match buildAverages old_averages oa old_weight ow nw with
        | none => .error "KeyError: model name missing from other averages"
        | some na' => combine_loop rest (dictSet result key (nw, na')) (some na')

/-- `combine_per_choice` from analyze_traces.py, specialized to two
arguments `(a, b)`: `result = args.pop()` takes `b`, then the single loop
iteration merges `a`'s entries into it. -/
def combine_per_choice (a b : Breakdown) : Except String Breakdown :=
  combine_loop a b none

/-- Well-formedness of an embedded Python dict together with the claimed
ModeOfEngagement invariant: goal names and priority keys are duplicate
free (Python dict keys are unique) and the two key sets coincide. -/
def wfMoe (m : ModeOfEngagement) : Prop :=
  m.goals.Nodup ∧ (akeys m.priorities).Nodup ∧ keysMatch m

/-- The within-rank invariant of `_synthesize_moe` relative to the rank's
base priority and the synthesized mode `s0` as it stood when the rank
started: the state is well formed, it extends `s0`, every priority entry
is either untouched from `s0` or a new entry for a goal in the provenance
set `P` whose value lies between `base` and the running
`max_priority_so_far`, and `max_priority_so_far` (when set) is at least
`base`. -/
def RInv (base : Int) (s0 : ModeOfEngagement) (P : String → Prop)
    (st : ModeOfEngagement × Option Int) : Prop :=
  wfMoe st.1 ∧
  (∀ g, g ∈ s0.goals → g ∈ st.1.goals) ∧
  (∀ g p, alookup st.1.priorities g = some p →
    (alookup s0.priorities g = some p ∨
     (alookup s0.priorities g = none ∧ P g ∧ base ≤ p ∧
       ∃ mx, st.2 = some mx ∧ p ≤ mx))) ∧
  (∀ mx, st.2 = some mx → base ≤ mx)

/-! ### Association-list lemmas -/

theorem alookup_isSome_iff {β : Type} (l : List (String × β)) (k : String) :
    (alookup l k).isSome ↔ k ∈ akeys l := by
  induction l with
  | nil => simp [alookup, akeys]
  | cons p rest ih =>
    obtain ⟨a, b⟩ := p
    by_cases h : a = k
    · subst h
      simp [alookup, akeys]
    · have h2 : ¬ k = a := fun hh => h hh.symm
      simp [alookup, akeys, h, h2, ih]

theorem alookup_eq_none_iff {β : Type} (l : List (String × β)) (k : String) :
    alookup l k = none ↔ k ∉ akeys l := by
  rw [← alookup_isSome_iff]
  cases alookup l k <;> simp

theorem alookup_mem {β : Type} {l : List (String × β)} {k : String} {v : β}
    (h : alookup l k = some v) : (k, v) ∈ l := by
  induction l with
  | nil => simp [alookup] at h
  | cons p rest ih =>
    obtain ⟨a, b⟩ := p
    by_cases hk : a = k
    · subst hk
      have hb : alookup ((a, b) :: rest) a = some b := by simp [alookup]
      rw [hb] at h
      injection h with h
      subst h
      exact List.mem_cons_self _ _
    · simp only [alookup, if_neg hk] at h
      exact List.mem_cons_of_mem _ (ih h)

theorem mem_akeys_of_mem {β : Type} {l : List (String × β)} {k : String}
    {v : β} (h : (k, v) ∈ l) : k ∈ akeys l := by
  simp only [akeys, List.mem_map]
  exact ⟨(k, v), h, rfl⟩

theorem alookup_append {β : Type} (l1 l2 : List (String × β)) (k : String) :
    alookup (l1 ++ l2) k =
      match alookup l1 k with
      | some v => some v
      | none => alookup l2 k := by
  induction l1 with
  | nil => simp [alookup]
  | cons p rest ih =>
    obtain ⟨a, b⟩ := p
    by_cases h : a = k <;> simp [alookup, h, ih]

theorem akeys_aset {β : Type} (l : List (String × β)) (k : String) (v : β) :
    akeys (aset l k v) = akeys l := by
  induction l with
  | nil => simp [aset]
  | cons p rest ih =>
    obtain ⟨a, b⟩ := p
    by_cases h : a = k
    · simp [aset, akeys, h]
    · simp only [aset, if_neg h, akeys, List.map_cons]
      simp only [akeys] at ih
      rw [ih]

theorem alookup_aset_self {β : Type} {l : List (String × β)} {k : String}
    (v : β) (h : k ∈ akeys l) : alookup (aset l k v) k = some v := by
  induction l with
  | nil => simp [akeys] at h
  | cons p rest ih =>
    obtain ⟨a, b⟩ := p
    by_cases hk : a = k
    · subst hk
      simp [aset, alookup]
    · have h3 : ¬ k = a := fun hh => hk hh.symm
      have h2 : k ∈ akeys rest := by simpa [akeys, h3] using h
      simp [aset, alookup, hk, h3, ih h2]

theorem alookup_aset_ne {β : Type} (l : List (String × β)) {k k' : String}
    (v : β) (h : k' ≠ k) : alookup (aset l k v) k' = alookup l k' := by
  induction l with
  | nil => simp [aset]
  | cons p rest ih =>
    obtain ⟨a, b⟩ := p
    by_cases h1 : a = k
    · subst h1
      have h2 : ¬ a = k' := fun hh => h hh.symm
      simp [aset, alookup, h2]
    · by_cases h2 : a = k'
      · subst h2
        simp [aset, alookup, h1]
      · simp [aset, alookup, h1, h2, ih]

theorem akeys_adel {β : Type} (l : List (String × β)) (k : String) :
    akeys (adel l k) = (akeys l).erase k := by
  induction l with
  | nil => rfl
  | cons p rest ih =>
    obtain ⟨a, b⟩ := p
    by_cases h : a = k
    · subst h
      simp [adel, akeys, List.erase_cons_head]
    · have hba : (a == k) = false := by simp [h]
      simp only [adel, if_neg h, akeys, List.map_cons, List.erase_cons, hba,
        Bool.false_eq_true, if_false]
      simp only [akeys] at ih
      rw [ih]

theorem akeys_dictSet {β : Type} (l : List (String × β)) (k : String)
    (v : β) : akeys (dictSet l k v) = if amem l k then akeys l
      else akeys l ++ [k] := by
  by_cases h : amem l k
  · rw [dictSet, if_pos h, akeys_aset, if_pos h]
  · rw [dictSet, if_neg h, if_neg h]
    simp [akeys]

theorem alookup_dictSet_self {β : Type} (l : List (String × β)) (k : String)
    (v : β) : alookup (dictSet l k v) k = some v := by
  by_cases h : amem l k
  · rw [dictSet, if_pos h]
    exact alookup_aset_self v ((alookup_isSome_iff l k).mp (by
      simpa [amem] using h))
  · rw [dictSet, if_neg h, alookup_append]
    have h2 : alookup l k = none := by
      cases hl : alookup l k with
      | none => rfl
      | some v' => exact absurd (by simp [amem, hl]) h
    simp [h2, alookup]

theorem alookup_dictSet_ne {β : Type} (l : List (String × β)) {k k' : String}
    (v : β) (h : k' ≠ k) : alookup (dictSet l k v) k' = alookup l k' := by
  by_cases hm : amem l k
  · rw [dictSet, if_pos hm]
    exact alookup_aset_ne l v h
  · rw [dictSet, if_neg hm, alookup_append]
    have h2 : ¬ k = k' := fun hh => h hh.symm
    cases hl : alookup l k' with
    | none => simp [alookup, h2]
    | some v' => simp

/-! ### dedupKeepFirst, conform_keys and fold lemmas -/

theorem mem_dedupKeepFirst (l : List String) (x : String) :
    x ∈ dedupKeepFirst l ↔ x ∈ l := by
  induction l using dedupKeepFirst.induct with
  | case1 => simp [dedupKeepFirst]
  | case2 k rest ih =>
    rw [dedupKeepFirst]
    by_cases hx : x = k
    · subst hx
      simp
    · simp only [List.mem_cons, hx, false_or, ih, List.mem_filter]
      constructor
      · exact fun h => h.1
      · exact fun h => ⟨h, by simpa using hx⟩

theorem dedupKeepFirst_nodup (l : List String) :
    (dedupKeepFirst l).Nodup := by
  induction l using dedupKeepFirst.induct with
  | case1 => simp [dedupKeepFirst]
  | case2 k rest ih =>
    rw [dedupKeepFirst]
    refine List.nodup_cons.mpr ⟨?_, ih⟩
    intro hk
    have := (mem_dedupKeepFirst _ _).mp hk
    simp [List.mem_filter] at this

theorem amem_append {β : Type} (l1 l2 : List (String × β)) (k : String) :
    amem (l1 ++ l2) k = (amem l1 k || amem l2 k) := by
  simp only [amem, alookup_append]
  cases alookup l1 k <;> simp

theorem amem_eq_false_iff {β : Type} (l : List (String × β)) (k : String) :
    amem l k = false ↔ k ∉ akeys l := by
  rw [amem]
  cases hl : alookup l k with
  | none => simpa using (alookup_eq_none_iff l k).mp hl
  | some v =>
    simp only [Option.isSome_some, Bool.true_eq_false, false_iff, not_not]
    exact mem_akeys_of_mem (alookup_mem hl)

theorem akeys_foldl_dictSet {β : Type} (d : β) (ks : List String) :
    ∀ l : List (String × β), ks.Nodup → (∀ k ∈ ks, amem l k = false) →
      akeys (ks.foldl (fun acc k => dictSet acc k d) l) = akeys l ++ ks := by
  induction ks with
  | nil =>
    intro l _ _
    simp
  | cons k rest ih =>
    intro l hnd hni
    have hk : amem l k = false := hni k (List.mem_cons_self _ _)
    have hstep : dictSet l k d = l ++ [(k, d)] := by
      rw [dictSet, if_neg (by simp [hk])]
    have hrest : ∀ k' ∈ rest, amem (l ++ [(k, d)]) k' = false := by
      intro k' hk'
      have h1 : amem l k' = false := hni k' (List.mem_cons_of_mem _ hk')
      have h2 : ¬ k = k' := by
        intro hh
        subst hh
        exact (List.nodup_cons.mp hnd).1 hk'
      rw [amem_append, h1]
      simp [amem, alookup, h2]
    have hih := ih (l ++ [(k, d)]) (List.nodup_cons.mp hnd).2 hrest
    simp only [List.foldl_cons, hstep, hih]
    simp [akeys]

theorem conform_keys_find_eq_none {β : Type} {valid : List String}
    {suspect : List (String × β)} {dflt : Option β}
    {out : List (String × β)}
    (h : conform_keys valid suspect dflt = .ok out) :
    suspect.find? (fun p => !valid.contains p.1) = none := by
  cases hf : suspect.find? (fun p => !valid.contains p.1) with
  | none => rfl
  | some q =>
    rw [conform_keys.eq_def, hf] at h
    exact absurd h (by simp)

theorem conform_keys_ok_sub {β : Type} {valid : List String}
    {suspect : List (String × β)} {dflt : Option β}
    {out : List (String × β)}
    (h : conform_keys valid suspect dflt = .ok out) :
    ∀ p ∈ suspect, p.1 ∈ valid := by
  intro p hp
  have hf := conform_keys_find_eq_none h
  have := List.find?_eq_none.mp hf p hp
  simpa using this

theorem conform_keys_ok_eq {β : Type} {valid : List String}
    {suspect : List (String × β)} {d : β} {out : List (String × β)}
    (h : conform_keys valid suspect (some d) = .ok out) :
    out = (valid.filter (fun k => !amem suspect k)).foldl
      (fun acc k => dictSet acc k d) suspect := by
  have hf := conform_keys_find_eq_none h
  rw [conform_keys.eq_def, hf] at h
  simpa using h.symm

theorem conform_keys_ok_keys {β : Type} {valid : List String}
    {suspect : List (String × β)} {d : β} {out : List (String × β)}
    (hv : valid.Nodup) (hs : (akeys suspect).Nodup)
    (h : conform_keys valid suspect (some d) = .ok out) :
    (akeys out).Nodup ∧ ∀ g, (g ∈ akeys out ↔ g ∈ valid) := by
  have hsub := conform_keys_ok_sub h
  have hout := conform_keys_ok_eq h
  set missing := valid.filter (fun k => !amem suspect k) with hmiss
  have hmnd : missing.Nodup := hv.filter _
  have hmni : ∀ k ∈ missing, amem suspect k = false := by
    intro k hk
    have := (List.mem_filter.mp hk).2
    simpa using this
  have hkeys : akeys out = akeys suspect ++ missing := by
    rw [hout]
    exact akeys_foldl_dictSet d missing suspect hmnd hmni
  rw [hkeys]
  constructor
  · refine List.Nodup.append hs hmnd ?_
    intro x hx1 hx2
    exact absurd hx1 ((amem_eq_false_iff suspect x).mp (hmni x hx2))
  · intro g
    simp only [List.mem_append]
    constructor
    · rintro (hg | hg)
      · obtain ⟨p, hp, hp2⟩ := List.mem_map.mp hg
        exact hp2 ▸ hsub p hp
      · exact (List.mem_filter.mp hg).1
    · intro hg
      by_cases hm : amem suspect g
      · exact Or.inl ((alookup_isSome_iff suspect g).mp (by simpa [amem] using hm))
      · exact Or.inr (List.mem_filter.mpr ⟨hg, by simpa using hm⟩)

/-! ### Claim C8 -/

/-- C8 (confirmed): the ModeOfEngagement invariant — the key set of the
priorities dict is exactly the goal set — is established by `__init__`
(unmapped goals default to `DEFAULT_PRIORITY`; a priority for an absent
goal is rejected, construction fails) and is maintained by `add_goal`,
`remove_goal` and `set_priority` whenever they succeed.  `wfMoe` bundles
`keysMatch` (the claimed invariant) with duplicate-freedom of the two key
lists, which Python dict keys enjoy automatically. -/
theorem C8_moe_keyset_invariant :
    (∀ nm gl ps m, (akeys ps).Nodup →
      ModeOfEngagement.init nm gl ps = .ok m → wfMoe m) ∧
    (∀ (m : ModeOfEngagement) g p m', wfMoe m →
      m.add_goal g p = .ok m' → wfMoe m') ∧
    (∀ (m : ModeOfEngagement) g m', wfMoe m →
      m.remove_goal g = .ok m' → wfMoe m') ∧
    (∀ (m : ModeOfEngagement) g p m', wfMoe m →
      m.set_priority g p = .ok m' → wfMoe m') := by
  refine ⟨?_, ?_, ?_, ?_⟩
  · intro nm gl ps m hs h
    rw [ModeOfEngagement.init] at h
    cases hc : conform_keys (dedupKeepFirst gl) ps (some DEFAULT_PRIORITY) with
    | error e =>
      rw [hc] at h
      exact absurd h (by simp)
    | ok ps' =>
      rw [hc] at h
      simp only [Except.ok.injEq] at h
      subst h
      obtain ⟨hnd, hiff⟩ := conform_keys_ok_keys (dedupKeepFirst_nodup gl) hs hc
      exact ⟨dedupKeepFirst_nodup gl, hnd, fun g => ⟨(hiff g).mpr, (hiff g).mp⟩⟩
  · intro m g p m' hwf h
    obtain ⟨hg, hp, hkm⟩ := hwf
    rw [ModeOfEngagement.add_goal] at h
    by_cases hc : m.goals.contains g
    · rw [if_pos hc] at h
      exact absurd h (by simp)
    · rw [if_neg hc] at h
      simp only [Except.ok.injEq] at h
      subst h
      have hgm : g ∉ m.goals := by simpa using hc
      have hpnm : g ∉ akeys m.priorities := fun hh => hgm ((hkm g).mpr hh)
      have hpm : amem m.priorities g = false :=
        (amem_eq_false_iff m.priorities g).mpr hpnm
      have hds : dictSet m.priorities g p = m.priorities ++ [(g, p)] := by
        rw [dictSet, if_neg (by simp [hpm])]
      have hka : akeys (m.priorities ++ [(g, p)]) = akeys m.priorities ++ [g] := by
        simp [akeys]
      refine ⟨?_, ?_, ?_⟩
      · simpa [List.nodup_append] using ⟨hg, hgm⟩
      · rw [hds, hka]
        simp only [List.nodup_append, List.nodup_singleton, true_and]
        exact ⟨hp, by simpa using hpnm⟩
      · intro x
        rw [hds, hka]
        simp only [List.mem_append, List.mem_singleton]
        constructor
        · rintro (hx | hx)
          · exact Or.inl ((hkm x).mp hx)
          · exact Or.inr hx
        · rintro (hx | hx)
          · exact Or.inl ((hkm x).mpr hx)
          · exact Or.inr hx
  · intro m g m' hwf h
    obtain ⟨hg, hp, hkm⟩ := hwf
    rw [ModeOfEngagement.remove_goal] at h
    by_cases hc : m.goals.contains g
    · have hmem : g ∈ m.goals := by simpa using hc
      rw [if_neg (by simp [hmem])] at h
      simp only [Except.ok.injEq] at h
      subst h
      refine ⟨hg.erase g, ?_, ?_⟩
      · rw [akeys_adel]
        exact hp.erase g
      · intro x
        rw [akeys_adel, hg.mem_erase_iff, hp.mem_erase_iff]
        exact ⟨fun hx => ⟨hx.1, (hkm x).mp hx.2⟩,
          fun hx => ⟨hx.1, (hkm x).mpr hx.2⟩⟩
    · rw [if_pos (by simpa using hc)] at h
      exact absurd h (by simp)
  · intro m g p m' hwf h
    obtain ⟨hg, hp, hkm⟩ := hwf
    rw [ModeOfEngagement.set_priority] at h
    by_cases hc : amem m.priorities g
    · rw [if_pos hc] at h
      simp only [Except.ok.injEq] at h
      subst h
      refine ⟨hg, ?_, ?_⟩
      · rw [akeys_aset]
        exact hp
      · intro x
        rw [akeys_aset]
        exact hkm x
    · rw [if_neg hc] at h
      exact absurd h (by simp)

/-- C8 witness: the invariant theorem applied to a concrete
construction, a goal addition and a priority update. -/
theorem C8_moe_keyset_invariant_witness :
    wfMoe ⟨"m", ["g"], [("g", 5)]⟩ ∧
    wfMoe ⟨"m", ["g", "h"], [("g", 5), ("h", 2)]⟩ ∧
    wfMoe ⟨"m", ["g"], [("g", 7)]⟩ := by
  have h1 : ModeOfEngagement.init "m" ["g"] [] = .ok ⟨"m", ["g"], [("g", 5)]⟩ := by
    simp [ModeOfEngagement.init, conform_keys, dedupKeepFirst, dictSet, amem,
      alookup, DEFAULT_PRIORITY, akeys]
  have hw1 := C8_moe_keyset_invariant.1 "m" ["g"] [] _ (by simp [akeys]) h1
  have h2 : ModeOfEngagement.add_goal ⟨"m", ["g"], [("g", 5)]⟩ "h" 2 =
      .ok ⟨"m", ["g", "h"], [("g", 5), ("h", 2)]⟩ := by
    simp [ModeOfEngagement.add_goal, dictSet, amem, alookup]
  have hw2 := C8_moe_keyset_invariant.2.1 _ "h" 2 _ hw1 h2
  have h3 : ModeOfEngagement.set_priority ⟨"m", ["g"], [("g", 5)]⟩ "g" 7 =
      .ok ⟨"m", ["g"], [("g", 7)]⟩ := by
    simp [ModeOfEngagement.set_priority, amem, alookup, aset]
  have hw3 := C8_moe_keyset_invariant.2.2.2 _ "g" 7 _ hw1 h3
  exact ⟨hw1, hw2, hw3⟩

/-! ### Claim C3 -/

/-- C3 (corrected): for every Valence bucket and every Visibility
(Salience) bucket, `abstract` maps the representative value back to the
bucket itself; for Certainty this holds for every bucket except
`inconceivable` (whose value 0.001 falls in the impossible range
[0, 0.05)) and `inviolable` (whose value 1.0 falls in the certain range
(0.95, 1]), which `abstract` maps to `impossible` and `certain`
respectively. -/
theorem C3_abstract_roundtrip :
    (∀ b : ValenceBucket, Valence.abstract b.value = .ok b) ∧
    (∀ b : VisibilityBucket, Visibility.abstract b.value = .ok b) ∧
    (∀ b : CertaintyBucket, b ≠ .inconceivable → b ≠ .inviolable →
      Certainty.abstract b.value = .ok b) ∧
    Certainty.abstract CertaintyBucket.inconceivable.value =
      .ok CertaintyBucket.impossible ∧
    Certainty.abstract CertaintyBucket.inviolable.value =
      .ok CertaintyBucket.certain := by
  refine ⟨?_, ?_, ?_, ?_, ?_⟩
  · intro b
    cases b <;> norm_num [Valence.abstract, ValenceBucket.value]
  · intro b
    cases b <;> norm_num [Visibility.abstract, VisibilityBucket.value]
  · intro b h1 h2
    cases b
    case inconceivable => exact absurd rfl h1
    case inviolable => exact absurd rfl h2
    all_goals norm_num [Certainty.abstract, CertaintyBucket.value]
  · norm_num [Certainty.abstract, CertaintyBucket.value]
  · norm_num [Certainty.abstract, CertaintyBucket.value]

/-- C3 witness: the amended round-trip theorem applied to the `even`
Certainty bucket. -/
theorem C3_abstract_roundtrip_witness :
    Certainty.abstract CertaintyBucket.even.value = .ok CertaintyBucket.even :=
  C3_abstract_roundtrip.2.2.1 CertaintyBucket.even (by decide) (by decide)

/-- C3 counterexample: `Certainty.abstract` applied to the representative
value of the `inviolable` bucket (1.0) returns the `certain` bucket, not
`inviolable`, so the claimed round-trip fails on the source's
`Certainty.abstract`. -/
theorem C3_certainty_counterexample :
    Certainty.abstract CertaintyBucket.inviolable.value =
      .ok CertaintyBucket.certain ∧
    CertaintyBucket.certain ≠ CertaintyBucket.inviolable :=
  ⟨by norm_num [Certainty.abstract, CertaintyBucket.value], by decide⟩

/-! ### Claim C4 -/

/-- C4 (code bug): `Option.sample_outcomes` reads `out.probability`, an
attribute Outcome never defines (the actual likelihood lives at
`out.actual_likelihood.probability`), so sampling any option with at least
one outcome raises AttributeError instead of including each outcome with
probability equal to its actual Certainty; here evaluated on a one-outcome
option whose outcome is inviolable (actual certainty 1.0). -/
theorem C4_sample_outcomes_attribute_error :
    COption.sample_outcomes ⟨"o", [("x", ⟨"x", [("g", 1)], 1, 1, 1⟩)]⟩ [0] =
      .error "AttributeError: Outcome object has no attribute probability" :=
  rfl

/-! ### Claim C5 -/

/-- C5 (code bug): combining two per-choice breakdowns whose model sets
differ for the same choice name does not raise the intended ValueError:
the guard in `combine_per_choice` compares `old_averages` against the
stale `new_averages` accumulator (still `None` for the first merged key)
instead of `other_averages`, so the entries are silently partially merged
— here model "B" of the first breakdown is silently dropped. -/
theorem C5_combine_silent_partial_merge :
    combine_per_choice [("c", (1, [("A", 1/2), ("B", 1/2)]))]
      [("c", (1, [("A", 1)]))] =
      .ok [("c", (2, [("A", 3/4)]))] := by
  norm_num [combine_per_choice, combine_loop, alookup, amem, aset, dictSet,
    buildAverages, sameKeySet, akeys]

/-! ### Claim C2 -/

/-- C2 (code bug): constructing a PlayerModel with a mode-ranking entry
for a mode that does not exist is fatal, not recoverable —
`utils.conform_keys` executes `raise RuntimeWarning(...)` on the first
spurious key (the pruning code after the raise is unreachable), so
construction aborts instead of dropping the entry with a warning. -/
theorem C2_spurious_ranking_entry_fatal :
    PlayerModel.init "p" [("m", ⟨"m", ["g"], [("g", 5)]⟩)]
      (some [("nope", 1)]) none none none =
      .error "RuntimeWarning: spurious key nope" :=
  rfl

/-! ### Claim C6 -/

/-- C6 (corrected): with prospective impressions unattached, `decide`
fails with the invalid-state ValueError for Maximizing, Satisficing and
Utilizing, but `Randomizing.decide` performs no precondition check at all
and returns an option name whenever the choice has any option. -/
theorem C6_decide_precondition (d : Decision)
    (h : d.prospective_impressions = none) :
    Maximizing.decide d =
      .error "Cannot make a decision until prospective impressions have been added." ∧
    Satisficing.decide d =
      .error "Cannot make a decision until prospective impressions have been added." ∧
    (∀ k, Utilizing.decide d k =
      .error "Cannot rank options until prospective impressions have been added.") ∧
    (∀ k, d.choice.options ≠ [] → ∃ nm, Randomizing.decide d k = .ok nm) := by
  refine ⟨?_, ?_, ?_, ?_⟩
  · simp [Maximizing.decide, truthyImpressions, h]
  · simp [Satisficing.decide, truthyImpressions, h]
  · intro k
    simp [Utilizing.decide, Utilizing.rank_options, h]
  · intro k hne
    have he : (akeys d.choice.options).isEmpty = false := by
      cases ho : d.choice.options with
      | nil => exact absurd ho hne
      | cons p rest => simp [akeys, ho]
    exact ⟨(akeys d.choice.options).getD
      (k % (akeys d.choice.options).length) "",
      by simp [Randomizing.decide, he]⟩

/-- C6 witness: the precondition theorem applied to a concrete
one-option decision with no prospective impressions. -/
theorem C6_decide_precondition_witness :
    Maximizing.decide ⟨⟨"c", [("A", ⟨"A", []⟩)]⟩, none, none, []⟩ =
      .error "Cannot make a decision until prospective impressions have been added." ∧
    Utilizing.decide ⟨⟨"c", [("A", ⟨"A", []⟩)]⟩, none, none, []⟩ 0 =
      .error "Cannot rank options until prospective impressions have been added." ∧
    ∃ nm, Randomizing.decide ⟨⟨"c", [("A", ⟨"A", []⟩)]⟩, none, none, []⟩ 0 =
      .ok nm := by
  have h := C6_decide_precondition ⟨⟨"c", [("A", ⟨"A", []⟩)]⟩, none, none, []⟩ rfl
  exact ⟨h.1, h.2.2.1 0, h.2.2.2 0 (by simp)⟩

/-- C6 counterexample: the claim asserts every strategy's `decide` fails
without prospective impressions, but `Randomizing.decide` succeeds on a
decision whose impressions were never attached. -/
theorem C6_randomizing_decide_counterexample :
    (⟨⟨"c", [("A", ⟨"A", []⟩)]⟩, none, none, []⟩ : Decision).prospective_impressions
      = none ∧
    Randomizing.decide ⟨⟨"c", [("A", ⟨"A", []⟩)]⟩, none, none, []⟩ 0 = .ok "A" :=
  ⟨rfl, rfl⟩

/-! ### Pairwise and mergeLevels lemmas -/

theorem getLast?_mem_self {α : Type} :
    ∀ (l : List α) (p : α), l.getLast? = some p → p ∈ l := by
  intro l
  induction l with
  | nil => simp
  | cons a t ih =>
    intro p hp
    cases t with
    | nil =>
      simp only [List.getLast?_singleton, Option.some.injEq] at hp
      simp [hp]
    | cons b t' =>
      rw [List.getLast?_cons_cons] at hp
      exact List.mem_cons_of_mem _ (ih p hp)

theorem pairwise_head_le {p : ℚ × List String} {t : List (ℚ × List String)}
    (h : List.Pairwise (fun a b => b.1 ≤ a.1) (p :: t)) :
    ∀ q ∈ p :: t, q.1 ≤ p.1 := by
  intro q hq
  rcases List.mem_cons.mp hq with hq | hq
  · exact hq ▸ le_refl _
  · exact (List.pairwise_cons.mp h).1 q hq

theorem pairwise_getLast_le :
    ∀ (l : List (ℚ × List String)),
      List.Pairwise (fun a b => b.1 ≤ a.1) l →
      ∀ p, l.getLast? = some p → ∀ q ∈ l, p.1 ≤ q.1 := by
  intro l
  induction l with
  | nil => simp
  | cons a t ih =>
    intro hs p hp q hq
    cases t with
    | nil =>
      simp only [List.getLast?_singleton, Option.some.injEq] at hp
      rcases List.mem_cons.mp hq with hq | hq
      · subst hp
        subst hq
        exact le_refl _
      · simp at hq
    | cons b t' =>
      rw [List.getLast?_cons_cons] at hp
      rcases List.mem_cons.mp hq with hq | hq
      · subst hq
        have hpmem : p ∈ b :: t' := getLast?_mem_self _ p hp
        exact (List.pairwise_cons.mp hs).1 p hpmem
      · exact ih (List.pairwise_cons.mp hs).2 p hp q hq

namespace Utilizing

theorem mergeLevels_ne_nil :
    ∀ l : List (ℚ × List String), l ≠ [] → mergeLevels l ≠ [] := by
  intro l
  induction l using mergeLevels.induct with
  | case1 => exact fun h => absurd rfl h
  | case2 x => intro _; simp [mergeLevels]
  | case3 u1 o1 u2 o2 rest hb ih =>
    intro _
    rw [mergeLevels, if_pos hb]
    simp
  | case4 u1 o1 u2 o2 rest hb hr ih =>
    intro _
    rw [mergeLevels, if_neg hb, if_pos hr]
    exact ih (by simp)
  | case5 u1 o1 u2 o2 rest hb hr ih =>
    intro _
    rw [mergeLevels, if_neg hb, if_neg hr]
    simp

theorem mergeLevels_all_le (u : ℚ) :
    ∀ l : List (ℚ × List String), (∀ p ∈ l, p.1 ≤ u) →
      ∀ p ∈ mergeLevels l, p.1 ≤ u := by
  intro l
  induction l using mergeLevels.induct with
  | case1 => intro _ p hp; simp [mergeLevels] at hp
  | case2 x =>
    intro h p hp
    simp only [mergeLevels] at hp
    exact h p hp
  | case3 u1 o1 u2 o2 rest hb ih =>
    intro h p hp
    rw [mergeLevels, if_pos hb] at hp
    rcases List.mem_cons.mp hp with hp | hp
    · exact hp ▸ h _ (List.mem_cons_self _ _)
    · exact ih (fun q hq => h q (List.mem_cons_of_mem _ hq)) p hp
  | case4 u1 o1 u2 o2 rest hb hr ih =>
    intro h p hp
    rw [mergeLevels, if_neg hb, if_pos hr] at hp
    refine ih ?_ p hp
    intro q hq
    rcases List.mem_cons.mp hq with hq | hq
    · have h1 := h _ (List.mem_cons_self (u1, o1) _)
      have h2 := h _ (List.mem_cons_of_mem _ (List.mem_cons_self (u2, o2) rest))
      simp only [hq]
      simp only at h1 h2
      linarith
    · exact h q (List.mem_cons_of_mem _ (List.mem_cons_of_mem _ hq))
  | case5 u1 o1 u2 o2 rest hb hr ih =>
    intro h p hp
    rw [mergeLevels, if_neg hb, if_neg hr] at hp
    rcases List.mem_cons.mp hp with hp | hp
    · exact hp ▸ h _ (List.mem_cons_self _ _)
    · exact ih (fun q hq => h q (List.mem_cons_of_mem _ hq)) p hp

theorem mergeLevels_sorted :
    ∀ l : List (ℚ × List String),
      List.Pairwise (fun a b => b.1 ≤ a.1) l →
      List.Pairwise (fun a b => b.1 < a.1) (mergeLevels l) := by
  intro l
  induction l using mergeLevels.induct with
  | case1 => intro _; simp [mergeLevels]
  | case2 x => intro _; simp [mergeLevels]
  | case3 u1 o1 u2 o2 rest hb ih =>
    intro hs
    have hs' := (List.pairwise_cons.mp hs).2
    have hlt : u2 < u1 := by
      rcases hb with ⟨hb1, hb2⟩ | ⟨hb1, hb2⟩ <;> linarith
    rw [mergeLevels, if_pos hb]
    refine List.pairwise_cons.mpr ⟨?_, ih hs'⟩
    intro p hp
    have hle : p.1 ≤ u2 :=
      mergeLevels_all_le u2 _ (pairwise_head_le hs') p hp
    calc p.1 ≤ u2 := hle
      _ < u1 := hlt
  | case4 u1 o1 u2 o2 rest hb hr ih =>
    intro hs
    have h21 : u2 ≤ u1 := (List.pairwise_cons.mp hs).1 _
      (List.mem_cons_self (u2, o2) rest)
    have hs' := (List.pairwise_cons.mp hs).2
    have hrest := (List.pairwise_cons.mp hs').1
    rw [mergeLevels, if_neg hb, if_pos hr]
    refine ih (List.pairwise_cons.mpr ⟨?_, (List.pairwise_cons.mp hs').2⟩)
    intro q hq
    have := hrest q hq
    simp only
    linarith
  | case5 u1 o1 u2 o2 rest hb hr ih =>
    intro hs
    have hs' := (List.pairwise_cons.mp hs).2
    have hlt : u2 < u1 := by
      simp only [value_resolution, not_lt] at hr
      linarith
    rw [mergeLevels, if_neg hb, if_neg hr]
    refine List.pairwise_cons.mpr ⟨?_, ih hs'⟩
    intro p hp
    have hle : p.1 ≤ u2 :=
      mergeLevels_all_le u2 _ (pairwise_head_le hs') p hp
    calc p.1 ≤ u2 := hle
      _ < u1 := hlt

theorem mergeLevels_mem_names (nm : String) :
    ∀ l : List (ℚ × List String), (∃ p ∈ l, nm ∈ p.2) →
      ∃ p ∈ mergeLevels l, nm ∈ p.2 := by
  intro l
  induction l using mergeLevels.induct with
  | case1 =>
    intro h
    rw [mergeLevels]
    exact h
  | case2 x =>
    intro h
    rw [mergeLevels]
    exact h
  | case3 u1 o1 u2 o2 rest hb ih =>
    intro h
    rw [mergeLevels, if_pos hb]
    obtain ⟨p, hp, hnm⟩ := h
    rcases List.mem_cons.mp hp with hp | hp
    · exact ⟨(u1, o1), List.mem_cons_self _ _, hp ▸ hnm⟩
    · obtain ⟨q, hq, hq2⟩ := ih ⟨p, hp, hnm⟩
      exact ⟨q, List.mem_cons_of_mem _ hq, hq2⟩
  | case4 u1 o1 u2 o2 rest hb hr ih =>
    intro h
    rw [mergeLevels, if_neg hb, if_pos hr]
    obtain ⟨p, hp, hnm⟩ := h
    rcases List.mem_cons.mp hp with hp | hp
    · refine ih ⟨((u1 + u2) / 2, o2 ++ o1), List.mem_cons_self _ _, ?_⟩
      have : nm ∈ o1 := by rw [hp] at hnm; exact hnm
      exact List.mem_append.mpr (Or.inr this)
    · rcases List.mem_cons.mp hp with hp | hp
      · refine ih ⟨((u1 + u2) / 2, o2 ++ o1), List.mem_cons_self _ _, ?_⟩
        have : nm ∈ o2 := by rw [hp] at hnm; exact hnm
        exact List.mem_append.mpr (Or.inl this)
      · exact ih ⟨p, List.mem_cons_of_mem _ hp, hnm⟩
  | case5 u1 o1 u2 o2 rest hb hr ih =>
    intro h
    rw [mergeLevels, if_neg hb, if_neg hr]
    obtain ⟨p, hp, hnm⟩ := h
    rcases List.mem_cons.mp hp with hp | hp
    · exact ⟨(u1, o1), List.mem_cons_self _ _, hp ▸ hnm⟩
    · obtain ⟨q, hq, hq2⟩ := ih ⟨p, hp, hnm⟩
      exact ⟨q, List.mem_cons_of_mem _ hq, hq2⟩

theorem merge_zero_forces (u1 u2 : ℚ)
    (hb : ¬((u1 > 0 ∧ u2 ≤ 0) ∨ (u1 ≥ 0 ∧ u2 < 0)))
    (h21 : u2 ≤ u1) :
    (u1 = 0 → u2 = 0) ∧ (u2 = 0 → u1 = 0) := by
  push_neg at hb
  obtain ⟨hb1, hb2⟩ := hb
  constructor
  · intro h1
    have h0 : u1 ≥ 0 := ge_of_eq h1
    have := hb2 h0
    linarith
  · intro h2
    have hne : ¬ (0 < u1) := by
      intro hgt
      have := hb1 hgt
      linarith
    linarith

theorem mergeLevels_zero_mem (nm : String) :
    ∀ l : List (ℚ × List String),
      List.Pairwise (fun a b => b.1 ≤ a.1) l →
      (∀ p ∈ l, nm ∈ p.2 → p.1 = 0) →
      ∀ p ∈ mergeLevels l, nm ∈ p.2 → p.1 = 0 := by
  intro l
  induction l using mergeLevels.induct with
  | case1 => intro _ _ p hp; simp [mergeLevels] at hp
  | case2 x =>
    intro _ h p hp
    simp only [mergeLevels] at hp
    exact h p hp
  | case3 u1 o1 u2 o2 rest hb ih =>
    intro hs h p hp
    rw [mergeLevels, if_pos hb] at hp
    rcases List.mem_cons.mp hp with hp | hp
    · exact hp ▸ h _ (List.mem_cons_self _ _)
    · exact ih (List.pairwise_cons.mp hs).2
        (fun q hq => h q (List.mem_cons_of_mem _ hq)) p hp
  | case4 u1 o1 u2 o2 rest hb hr ih =>
    intro hs h p hp
    rw [mergeLevels, if_neg hb, if_pos hr] at hp
    have h21 : u2 ≤ u1 := (List.pairwise_cons.mp hs).1 _
      (List.mem_cons_self (u2, o2) rest)
    have hs' := (List.pairwise_cons.mp hs).2
    have hrest := (List.pairwise_cons.mp hs').1
    have hms : List.Pairwise (fun a b => b.1 ≤ a.1)
        (((u1 + u2) / 2, o2 ++ o1) :: rest) := by
      refine List.pairwise_cons.mpr ⟨?_, (List.pairwise_cons.mp hs').2⟩
      intro q hq
      have := hrest q hq
      simp only
      linarith
    refine ih hms ?_ p hp
    intro q hq hqnm
    rcases List.mem_cons.mp hq with hq | hq
    · subst hq
      simp only [List.mem_append] at hqnm
      rcases hqnm with hqnm | hqnm
      · have hu2 : u2 = 0 := h _ (List.mem_cons_of_mem _
          (List.mem_cons_self (u2, o2) rest)) hqnm
        have hu1 : u1 = 0 := (merge_zero_forces u1 u2 hb h21).2 hu2
        simp [hu1, hu2]
      · have hu1 : u1 = 0 := h _ (List.mem_cons_self _ _) hqnm
        have hu2 : u2 = 0 := (merge_zero_forces u1 u2 hb h21).1 hu1
        simp [hu1, hu2]
    · exact h q (List.mem_cons_of_mem _ (List.mem_cons_of_mem _ hq)) hqnm
  | case5 u1 o1 u2 o2 rest hb hr ih =>
    intro hs h p hp
    rw [mergeLevels, if_neg hb, if_neg hr] at hp
    rcases List.mem_cons.mp hp with hp | hp
    · exact hp ▸ h _ (List.mem_cons_self _ _)
    · exact ih (List.pairwise_cons.mp hs).2
        (fun q hq => h q (List.mem_cons_of_mem _ hq)) p hp

theorem mergeLevels_zero_exists (nm : String) :
    ∀ l : List (ℚ × List String),
      List.Pairwise (fun a b => b.1 ≤ a.1) l →
      (∃ p ∈ l, p.1 = 0 ∧ nm ∈ p.2) →
      ∃ p ∈ mergeLevels l, p.1 = 0 ∧ nm ∈ p.2 := by
  intro l
  induction l using mergeLevels.induct with
  | case1 =>
    intro _ h
    rw [mergeLevels]
    exact h
  | case2 x =>
    intro _ h
    rw [mergeLevels]
    exact h
  | case3 u1 o1 u2 o2 rest hb ih =>
    intro hs h
    rw [mergeLevels, if_pos hb]
    obtain ⟨p, hp, hp0, hnm⟩ := h
    rcases List.mem_cons.mp hp with hp | hp
    · exact ⟨(u1, o1), List.mem_cons_self _ _, by rw [← hp]; exact ⟨hp0, hnm⟩⟩
    · obtain ⟨q, hq, hq2⟩ := ih (List.pairwise_cons.mp hs).2 ⟨p, hp, hp0, hnm⟩
      exact ⟨q, List.mem_cons_of_mem _ hq, hq2⟩
  | case4 u1 o1 u2 o2 rest hb hr ih =>
    intro hs h
    rw [mergeLevels, if_neg hb, if_pos hr]
    have h21 : u2 ≤ u1 := (List.pairwise_cons.mp hs).1 _
      (List.mem_cons_self (u2, o2) rest)
    have hs' := (List.pairwise_cons.mp hs).2
    have hrest := (List.pairwise_cons.mp hs').1
    have hms : List.Pairwise (fun a b => b.1 ≤ a.1)
        (((u1 + u2) / 2, o2 ++ o1) :: rest) := by
      refine List.pairwise_cons.mpr ⟨?_, (List.pairwise_cons.mp hs').2⟩
      intro q hq
      have := hrest q hq
      simp only
      linarith
    obtain ⟨p, hp, hp0, hnm⟩ := h
    rcases List.mem_cons.mp hp with hp | hp
    · have hu1 : u1 = 0 := by
        have : p.1 = u1 := by rw [hp]
        rw [← this, hp0]
      have hu2 : u2 = 0 := (merge_zero_forces u1 u2 hb h21).1 hu1
      refine ih hms ⟨((u1 + u2) / 2, o2 ++ o1), List.mem_cons_self _ _,
        by simp [hu1, hu2], ?_⟩
      have : nm ∈ o1 := by rw [hp] at hnm; exact hnm
      exact List.mem_append.mpr (Or.inr this)
    · rcases List.mem_cons.mp hp with hp | hp
      · have hu2 : u2 = 0 := by
          have : p.1 = u2 := by rw [hp]
          rw [← this, hp0]
        have hu1 : u1 = 0 := (merge_zero_forces u1 u2 hb h21).2 hu2
        refine ih hms ⟨((u1 + u2) / 2, o2 ++ o1), List.mem_cons_self _ _,
          by simp [hu1, hu2], ?_⟩
        have : nm ∈ o2 := by rw [hp] at hnm; exact hnm
        exact List.mem_append.mpr (Or.inl this)
      · exact ih hms ⟨p, List.mem_cons_of_mem _ hp, hp0, hnm⟩
  | case5 u1 o1 u2 o2 rest hb hr ih =>
    intro hs h
    rw [mergeLevels, if_neg hb, if_neg hr]
    obtain ⟨p, hp, hp0, hnm⟩ := h
    rcases List.mem_cons.mp hp with hp | hp
    · exact ⟨(u1, o1), List.mem_cons_self _ _, by rw [← hp]; exact ⟨hp0, hnm⟩⟩
    · obtain ⟨q, hq, hq2⟩ := ih (List.pairwise_cons.mp hs).2 ⟨p, hp, hp0, hnm⟩
      exact ⟨q, List.mem_cons_of_mem _ hq, hq2⟩

theorem strictLevels_sorted (us : List (String × ℚ)) :
    List.Pairwise (fun a b => b.1 ≤ a.1) (strictLevels us) := by
  rw [strictLevels, List.pairwise_map]
  simp only []
  rw [List.pairwise_reverse]
  have hs := List.sorted_insertionSort (α := ℚ) (· ≤ ·) (us.map Prod.snd)
  exact hs

theorem strictLevels_ne_nil (us : List (String × ℚ)) (h : us ≠ []) :
    strictLevels us ≠ [] := by
  intro hc
  apply h
  rw [strictLevels] at hc
  have h1 : ((us.map Prod.snd).insertionSort (· ≤ ·)).reverse = [] := by
    cases hr : ((us.map Prod.snd).insertionSort (· ≤ ·)).reverse with
    | nil => rfl
    | cons a t => rw [hr] at hc; simp at hc
  have h2 : (us.map Prod.snd).insertionSort (· ≤ ·) = [] := by
    simpa using congrArg List.reverse h1
  have h3 := congrArg List.length h2
  rw [(List.perm_insertionSort (· ≤ ·) (us.map Prod.snd)).length_eq,
    List.length_map] at h3
  exact List.eq_nil_of_length_eq_zero h3

theorem strictLevels_mem {us : List (String × ℚ)} {nm : String} {u : ℚ}
    (h : (nm, u) ∈ us) :
    ∃ names, (u, names) ∈ strictLevels us ∧ nm ∈ names := by
  refine ⟨us.filterMap (fun p => if p.2 = u then some p.1 else none), ?_, ?_⟩
  · rw [strictLevels]
    refine List.mem_map.mpr ⟨u, ?_, rfl⟩
    rw [List.mem_reverse, List.mem_insertionSort]
    exact List.mem_map.mpr ⟨(nm, u), h, rfl⟩
  · exact List.mem_filterMap.mpr ⟨(nm, u), h, by simp⟩

theorem strictLevels_names {us : List (String × ℚ)} :
    ∀ p ∈ strictLevels us, ∀ nm ∈ p.2, (nm, p.1) ∈ us := by
  intro p hp nm hnm
  rw [strictLevels] at hp
  obtain ⟨u, hu, hfu⟩ := List.mem_map.mp hp
  subst hfu
  obtain ⟨q, hq, hq2⟩ := List.mem_filterMap.mp hnm
  by_cases hqu : q.2 = u
  · rw [if_pos hqu] at hq2
    injection hq2 with hq2
    have : q = (nm, u) := by
      obtain ⟨q1, q2⟩ := q
      simp only at hq2 hqu
      rw [hq2, hqu]
    exact this ▸ hq
  · rw [if_neg hqu] at hq2
    simp at hq2

theorem utilities_alookup (dm : DecisionModel) (gr : List (String × ℚ))
    (opt : String) :
    alookup (utilities dm gr) opt = (alookup dm opt).map (optUtility gr) := by
  induction dm with
  | nil => simp [utilities, alookup]
  | cons og rest ih =>
    obtain ⟨o, gm⟩ := og
    by_cases h : o = opt
    · simp [utilities, alookup, h]
    · simp only [utilities, List.map_cons, alookup, if_neg h] at ih ⊢
      exact ih

theorem akeys_utilities (dm : DecisionModel) (gr : List (String × ℚ)) :
    akeys (utilities dm gr) = akeys dm := by
  induction dm with
  | nil => rfl
  | cons og rest ih =>
    simp only [utilities, List.map_cons, akeys] at ih ⊢
    rw [ih]

theorem optUtility_foldl_empty (gr : List (String × ℚ)) :
    ∀ (gm : List (String × List Prospective)) (acc : ℚ),
      (∀ p ∈ gm, p.2 = ([] : List Prospective)) →
      gm.foldl (fun acc gp =>
        gp.2.foldl (fun a pri =>
          a + pri.utility * ((alookup gr gp.1).getD 1)) acc) acc = acc := by
  intro gm
  induction gm with
  | nil =>
    intro acc _
    rfl
  | cons gp rest ih =>
    intro acc h
    have h0 : gp.2 = [] := h gp (List.mem_cons_self _ _)
    simp only [List.foldl_cons, h0, List.foldl_nil]
    exact ih acc (fun q hq => h q (List.mem_cons_of_mem _ hq))

theorem optUtility_empty (gr : List (String × ℚ))
    (gm : List (String × List Prospective))
    (h : ∀ p ∈ gm, p.2 = ([] : List Prospective)) :
    optUtility gr gm = 0 :=
  optUtility_foldl_empty gr gm 0 h

theorem findChosen_head (u : ℚ) (cls : List String)
    (t : List (ℚ × List String)) (nm : String) (h : nm ∈ cls) :
    findChosen ((u, cls) :: t) nm = some u := by
  have hf : ((u, cls) :: t).find? (fun p => p.2.contains nm) = some (u, cls) :=
    List.find?_cons_of_pos _ (by simpa using h)
  rw [findChosen, hf]

theorem findChosen_spec (nm : String) :
    ∀ ranked : List (ℚ × List String), (∃ p ∈ ranked, nm ∈ p.2) →
      ∃ u p, findChosen ranked nm = some u ∧ p ∈ ranked ∧ p.1 = u ∧
        nm ∈ p.2 := by
  intro ranked
  induction ranked with
  | nil =>
    intro h
    simp at h
  | cons a t ih =>
    intro h
    by_cases hc : nm ∈ a.2
    · refine ⟨a.1, a, ?_, List.mem_cons_self _ _, rfl, hc⟩
      have hf : (a :: t).find? (fun p => p.2.contains nm) = some a :=
        List.find?_cons_of_pos _ (by simpa using hc)
      rw [findChosen, hf]
    · obtain ⟨p, hp, hnm⟩ := h
      rcases List.mem_cons.mp hp with hp | hp
      · exact absurd (hp ▸ hnm) hc
      · obtain ⟨u, q, hf, hq, hq1, hq2⟩ := ih ⟨p, hp, hnm⟩
        refine ⟨u, q, ?_, List.mem_cons_of_mem _ hq, hq1, hq2⟩
        have hfc : (a :: t).find? (fun p => p.2.contains nm) =
            t.find? (fun p => p.2.contains nm) :=
          List.find?_cons_of_neg _ (by simpa using hc)
        rw [findChosen, hfc]
        rw [findChosen] at hf
        exact hf

theorem rank_options_eq (d : Decision) (dm : DecisionModel)
    (h2 : d.prospective_impressions = some dm) (h3 : dm ≠ []) :
    rank_options d =
      .ok (mergeLevels (strictLevels (utilities dm d.goal_relevance))) := by
  have he : dm.isEmpty = false := by
    cases dm with
    | nil => exact absurd rfl h3
    | cons a t => rfl
  rw [rank_options.eq_def, h2]
  simp [he]

end Utilizing

theorem alookup_eq_of_mem_nodup {β : Type} {l : List (String × β)}
    (hnd : (akeys l).Nodup) {k : String} {v : β} (h : (k, v) ∈ l) :
    alookup l k = some v := by
  induction l with
  | nil => simp at h
  | cons p rest ih =>
    obtain ⟨a, b⟩ := p
    rcases List.mem_cons.mp h with h | h
    · injection h with h1 h2
      subst h1
      subst h2
      simp [alookup]
    · have hnd2 : (a :: akeys rest).Nodup := hnd
      have ha : ¬ a = k := by
        intro hh
        subst hh
        exact (List.nodup_cons.mp hnd2).1 (mem_akeys_of_mem h)
      simp only [alookup, if_neg ha]
      exact ih (List.nodup_cons.mp hnd2).2 h

theorem getLast?_exists {α : Type} :
    ∀ (l : List α), l ≠ [] → ∃ w, l.getLast? = some w := by
  intro l
  induction l with
  | nil => exact fun h => absurd rfl h
  | cons a t ih =>
    intro _
    cases t with
    | nil => exact ⟨a, rfl⟩
    | cons b t' =>
      obtain ⟨w, hw⟩ := ih (by simp)
      exact ⟨w, by rw [List.getLast?_cons_cons]; exact hw⟩

/-! ### Claim C9 -/

/-- C9 (confirmed): in the merge loop of `Utilizing.rank_options`, when
two adjacent utility classes merge the new class's value is the
arithmetic mean of the two merged values and the option names of the
popped upper class are appended after the lower class's names, after
which the freshly merged class is immediately re-compared at the same
position (the recursion continues on the merged list without advancing);
consequently a chain of classes each within the 0.09 resolution of its
neighbor collapses into a single class, as the concrete three-class chain
0.30 / 0.25 / 0.20 shows. -/
theorem C9_merge_mean_and_recompare :
    (∀ (u1 u2 : ℚ) (o1 o2 : List String) (rest : List (ℚ × List String)),
      ¬((u1 > 0 ∧ u2 ≤ 0) ∨ (u1 ≥ 0 ∧ u2 < 0)) →
      u1 - u2 < Utilizing.value_resolution →
      Utilizing.mergeLevels ((u1, o1) :: (u2, o2) :: rest) =
        Utilizing.mergeLevels (((u1 + u2) / 2, o2 ++ o1) :: rest)) ∧
    Utilizing.mergeLevels [(3/10, ["a"]), (1/4, ["b"]), (1/5, ["c"])] =
      [(19/80, ["c", "b", "a"])] := by
  constructor
  · intro u1 u2 o1 o2 rest hb hr
    rw [Utilizing.mergeLevels, if_neg hb, if_pos hr]
  · norm_num [Utilizing.mergeLevels, Utilizing.value_resolution]

/-- C9 witness: the merge-step equation applied to two concrete positive
levels 0.05 and 0.04 whose difference is below the resolution. -/
theorem C9_merge_mean_and_recompare_witness :
    Utilizing.mergeLevels [((1:ℚ)/20, ["x"]), (1/25, ["y"])] =
      Utilizing.mergeLevels [(((1:ℚ)/20 + 1/25) / 2, ["y"] ++ ["x"])] :=
  C9_merge_mean_and_recompare.1 (1/20) (1/25) ["x"] ["y"] []
    (by norm_num) (by norm_num [Utilizing.value_resolution])

/-! ### Claim C10 -/

/-- C10 (confirmed): an option of the decision model with no prospective
impressions for any goal receives utility exactly 0 in
`Utilizing.rank_options`; in the returned ranking some class of utility
exactly 0 contains it, every class containing it has utility exactly 0
(the zero-boundary test forbids merging the zero class with any strictly
negative or strictly positive class), and the classes are in strictly
descending utility order, so the option's class ranks strictly above
every negative-utility class. -/
theorem C10_impressionless_option_zero (d : Decision) (dm : DecisionModel)
    (opt : String) (gm : List (String × List Prospective))
    (h2 : d.prospective_impressions = some dm) (h3 : dm ≠ [])
    (hnd : (akeys dm).Nodup)
    (hopt : alookup dm opt = some gm)
    (hemp : ∀ p ∈ gm, p.2 = ([] : List Prospective)) :
    alookup (Utilizing.utilities dm d.goal_relevance) opt = some 0 ∧
    ∃ ranked, Utilizing.rank_options d = .ok ranked ∧
      (∃ cls ∈ ranked, cls.1 = 0 ∧ opt ∈ cls.2) ∧
      (∀ cls ∈ ranked, opt ∈ cls.2 → cls.1 = 0) ∧
      List.Pairwise (fun a b => b.1 < a.1) ranked := by
  have hu0 : alookup (Utilizing.utilities dm d.goal_relevance) opt = some 0 := by
    rw [Utilizing.utilities_alookup, hopt]
    simp [Utilizing.optUtility_empty _ _ hemp]
  have husnd : (akeys (Utilizing.utilities dm d.goal_relevance)).Nodup := by
    rw [Utilizing.akeys_utilities]
    exact hnd
  have hmem : (opt, (0:ℚ)) ∈ Utilizing.utilities dm d.goal_relevance :=
    alookup_mem hu0
  have hsl_sorted := Utilizing.strictLevels_sorted
    (Utilizing.utilities dm d.goal_relevance)
  have hall : ∀ p ∈ Utilizing.strictLevels
      (Utilizing.utilities dm d.goal_relevance), opt ∈ p.2 → p.1 = 0 := by
    intro p hp hop
    have h1 := Utilizing.strictLevels_names p hp opt hop
    have h2' := alookup_eq_of_mem_nodup husnd h1
    rw [hu0] at h2'
    injection h2' with h2'
    exact h2'.symm
  have hex : ∃ p ∈ Utilizing.strictLevels
      (Utilizing.utilities dm d.goal_relevance), p.1 = 0 ∧ opt ∈ p.2 := by
    obtain ⟨names, hcls, hnm⟩ := Utilizing.strictLevels_mem hmem
    exact ⟨(0, names), hcls, rfl, hnm⟩
  refine ⟨hu0, Utilizing.mergeLevels (Utilizing.strictLevels
    (Utilizing.utilities dm d.goal_relevance)),
    Utilizing.rank_options_eq d dm h2 h3, ?_, ?_, ?_⟩
  · exact Utilizing.mergeLevels_zero_exists opt _ hsl_sorted hex
  · exact Utilizing.mergeLevels_zero_mem opt _ hsl_sorted hall
  · exact Utilizing.mergeLevels_sorted _ hsl_sorted

/-- C10 witness: the theorem applied to a one-option decision model whose
only option has no impressions. -/
theorem C10_impressionless_option_zero_witness :
    alookup (Utilizing.utilities [("A", [])] []) "A" = some 0 ∧
    ∃ ranked, Utilizing.rank_options
        ⟨⟨"c", []⟩, none, some [("A", [])], []⟩ = .ok ranked ∧
      (∃ cls ∈ ranked, cls.1 = 0 ∧ "A" ∈ cls.2) ∧
      (∀ cls ∈ ranked, "A" ∈ cls.2 → cls.1 = 0) ∧
      List.Pairwise (fun a b => b.1 < a.1) ranked :=
  C10_impressionless_option_zero ⟨⟨"c", []⟩, none, some [("A", [])], []⟩
    [("A", [])] "A" [] rfl (by simp) (by simp [akeys]) (by simp [alookup])
    (by simp)

/-! ### Claim C1 -/

/-- C1 (corrected): for a decision with a chosen option and truthy
prospective impressions whose chosen option appears in the decision
model, `Utilizing.consistency` succeeds, and (a) whenever the worst
equivalence class's utility is at least -1 the returned score lies in
[0, 1], and (b) whenever the chosen option lies in the highest-utility
equivalence class the score is exactly 1.0.  Without the worst-utility
bound the score can leave [0, 1] — see the counterexample. -/
theorem C1_utilizing_consistency (d : Decision) (nm : String)
    (dm : DecisionModel)
    (h1 : d.option = some nm)
    (h2 : d.prospective_impressions = some dm) (h3 : dm ≠ [])
    (h4 : nm ∈ akeys dm) :
    ∃ ranked q, Utilizing.rank_options d = .ok ranked ∧
      Utilizing.consistency d = .ok q ∧
      (∀ w, ranked.getLast? = some w → -1 ≤ w.1 → 0 ≤ q ∧ q ≤ 1) ∧
      (∀ p, ranked.head? = some p → nm ∈ p.2 → q = 1) := by
  have husk : akeys (Utilizing.utilities dm d.goal_relevance) = akeys dm :=
    Utilizing.akeys_utilities dm d.goal_relevance
  have h4' : nm ∈ (Utilizing.utilities dm d.goal_relevance).map Prod.fst := by
    have : nm ∈ akeys (Utilizing.utilities dm d.goal_relevance) := by
      rw [husk]
      exact h4
    exact this
  obtain ⟨p0, hp0, hp0f⟩ := List.mem_map.mp h4'
  have hmem0 : (nm, p0.2) ∈ Utilizing.utilities dm d.goal_relevance := by
    have hpe : p0 = (nm, p0.2) := by
      obtain ⟨x, y⟩ := p0
      simp only at hp0f
      rw [hp0f]
    exact hpe ▸ hp0
  obtain ⟨names0, hcls0, hnm0⟩ := Utilizing.strictLevels_mem hmem0
  have husne : Utilizing.utilities dm d.goal_relevance ≠ [] := by
    intro hc
    apply h3
    have hlen := congrArg List.length hc
    rw [Utilizing.utilities, List.length_map] at hlen
    exact List.eq_nil_of_length_eq_zero hlen
  have hslne := Utilizing.strictLevels_ne_nil _ husne
  have hsl_sorted := Utilizing.strictLevels_sorted
    (Utilizing.utilities dm d.goal_relevance)
  have hrank := Utilizing.rank_options_eq d dm h2 h3
  have hrs := Utilizing.mergeLevels_sorted _ hsl_sorted
  have hrw : List.Pairwise (fun a b => b.1 ≤ a.1)
      (Utilizing.mergeLevels (Utilizing.strictLevels
        (Utilizing.utilities dm d.goal_relevance))) :=
    hrs.imp (fun h => le_of_lt h)
  have hrne := Utilizing.mergeLevels_ne_nil _ hslne
  have hmemr := Utilizing.mergeLevels_mem_names nm _
    ⟨(p0.2, names0), hcls0, hnm0⟩
  obtain ⟨chosen, pc, hfind, hpc, hpc1, hpc2⟩ :=
    Utilizing.findChosen_spec nm _ hmemr
  obtain ⟨w, hw⟩ := getLast?_exists _ hrne
  cases hr : Utilizing.mergeLevels (Utilizing.strictLevels
      (Utilizing.utilities dm d.goal_relevance)) with
  | nil => exact absurd hr hrne
  | cons b tail =>
    obtain ⟨best, cls0⟩ := b
    rw [hr] at hrank hw hfind hrw hpc
    have he : dm.isEmpty = false := by
      cases dm with
      | nil => exact absurd rfl h3
      | cons x t => rfl
    have htru : truthyImpressions d.prospective_impressions = true := by
      rw [h2]
      simp [truthyImpressions, he]
    have hcons : Utilizing.consistency d =
        (if best - (-1/2 + w.1 / 2) = 0 then Except.ok 1
         else Except.ok ((chosen - (-1/2 + w.1 / 2)) /
           (best - (-1/2 + w.1 / 2)))) := by
      rw [Utilizing.consistency.eq_def, h1]
      simp only [htru, Bool.not_true, Bool.false_eq_true, if_false]
      rw [hrank]
      simp only [hw, hfind]
      rfl
    refine ⟨(best, cls0) :: tail,
      (if best - (-1/2 + w.1 / 2) = 0 then 1
       else ((chosen - (-1/2 + w.1 / 2)) / (best - (-1/2 + w.1 / 2)))),
      hrank, ?_, ?_, ?_⟩
    · rw [hcons]
      by_cases h0 : best - (-1/2 + w.1 / 2) = 0
      · rw [if_pos h0, if_pos h0]
      · rw [if_neg h0, if_neg h0]
    · intro w' hw' hneg
      have hww : w' = w := by
        rw [hw] at hw'
        injection hw' with hww
        exact hww.symm
      subst hww
      have hcb : chosen ≤ best := by
        have hh := pairwise_head_le hrw pc hpc
        rw [hpc1] at hh
        exact hh
      have hwc : w'.1 ≤ chosen := by
        have hh := pairwise_getLast_le _ hrw w' hw pc hpc
        rw [hpc1] at hh
        exact hh
      by_cases h0 : best - (-1/2 + w'.1 / 2) = 0
      · rw [if_pos h0]
        norm_num
      · rw [if_neg h0]
        have hlbw : -1/2 + w'.1 / 2 ≤ w'.1 := by linarith
        have hd0 : 0 ≤ best - (-1/2 + w'.1 / 2) := by linarith
        have hd : 0 < best - (-1/2 + w'.1 / 2) :=
          lt_of_le_of_ne hd0 (Ne.symm h0)
        constructor
        · apply div_nonneg _ hd0
          linarith
        · rw [div_le_one hd]
          linarith
    · intro p hp hnmp
      have hph : ((best, cls0) :: tail).head? = some (best, cls0) := rfl
      rw [hph] at hp
      injection hp with hp
      subst hp
      have hfb := Utilizing.findChosen_head best cls0 tail nm hnmp
      rw [hfind] at hfb
      injection hfb with hfb
      by_cases h0 : best - (-1/2 + w.1 / 2) = 0
      · rw [if_pos h0]
      · rw [if_neg h0]
        rw [hfb]
        exact div_self h0

/-- C1 witness: the amended consistency theorem applied to a one-option
decision whose chosen option has no impressions. -/
theorem C1_utilizing_consistency_witness :
    ∃ ranked q, Utilizing.rank_options
        ⟨⟨"c", []⟩, some "A", some [("A", [])], []⟩ = .ok ranked ∧
      Utilizing.consistency ⟨⟨"c", []⟩, some "A", some [("A", [])], []⟩ =
        .ok q ∧
      (∀ w, ranked.getLast? = some w → -1 ≤ w.1 → 0 ≤ q ∧ q ≤ 1) ∧
      (∀ p, ranked.head? = some p → "A" ∈ p.2 → q = 1) :=
  C1_utilizing_consistency ⟨⟨"c", []⟩, some "A", some [("A", [])], []⟩
    "A" [("A", [])] rfl rfl (by simp) (by simp [akeys])

/-- C1 counterexample: a two-option decision where the chosen option "B"
carries two awful-certain impressions (utility -1.9, below -1): the
linear rescaling of `Utilizing.consistency` against the lower bound
`-0.5 + worst/2 = -1.45` returns -9/29, which is strictly below 0, so the
claimed bound `0.0 <= consistency(decision)` fails on the code. -/
theorem C1_consistency_below_zero_counterexample :
    Utilizing.consistency ⟨⟨"c", []⟩, some "B",
      some [("A", []), ("B", [("g", [⟨"g", -19/20, 1, 1⟩,
        ⟨"g", -19/20, 1, 1⟩])])], []⟩ = .ok (-9/29) ∧
    ¬(0 ≤ (-9/29 : ℚ)) := by
  constructor
  · norm_num [Utilizing.consistency, Utilizing.rank_options,
      Utilizing.utilities, Utilizing.optUtility, Prospective.utility,
      Utilizing.strictLevels, Utilizing.mergeLevels,
      Utilizing.value_resolution, Utilizing.findChosen, truthyImpressions,
      alookup, akeys, List.insertionSort, List.orderedInsert,
      List.find?, List.filterMap]
    simp only [show (decide ("B" = "A")) = false from rfl]
    norm_num
  · norm_num

/-! ### Claim C7 — helper lemmas for priority synthesis -/

theorem add_goal_eq (m : ModeOfEngagement) (g : String) (p : Int)
    (hwf : wfMoe m) (hg : g ∉ m.goals) :
    m.add_goal g p = .ok ⟨m.name, m.goals ++ [g], m.priorities ++ [(g, p)]⟩ := by
  obtain ⟨_, _, hkm⟩ := hwf
  have hpm : amem m.priorities g = false :=
    (amem_eq_false_iff _ _).mpr (fun hh => hg ((hkm g).mpr hh))
  rw [ModeOfEngagement.add_goal, if_neg (by simpa using hg)]
  rw [dictSet, if_neg (by simp [hpm])]

theorem wf_add_goal (m : ModeOfEngagement) (g : String) (p : Int)
    (hwf : wfMoe m) (hg : g ∉ m.goals) :
    wfMoe ⟨m.name, m.goals ++ [g], m.priorities ++ [(g, p)]⟩ := by
  obtain ⟨hgn, hpn, hkm⟩ := hwf
  have hpnm : g ∉ akeys m.priorities := fun hh => hg ((hkm g).mpr hh)
  have hka : akeys (m.priorities ++ [(g, p)]) = akeys m.priorities ++ [g] := by
    simp [akeys]
  refine ⟨?_, ?_, ?_⟩
  · simpa [List.nodup_append] using ⟨hgn, hg⟩
  · rw [hka]
    simp only [List.nodup_append, List.nodup_singleton, true_and]
    exact ⟨hpn, by simpa using hpnm⟩
  · intro x
    rw [hka]
    simp only [List.mem_append, List.mem_singleton]
    exact ⟨fun hx => hx.imp (hkm x).mp id, fun hx => hx.imp (hkm x).mpr id⟩

theorem set_priority_eq (m : ModeOfEngagement) (g : String) (p : Int)
    (hg : amem m.priorities g = true) :
    m.set_priority g p = .ok ⟨m.name, m.goals, aset m.priorities g p⟩ := by
  rw [ModeOfEngagement.set_priority, if_pos hg]

theorem wf_aset (m : ModeOfEngagement) (g : String) (p : Int)
    (hwf : wfMoe m) :
    wfMoe ⟨m.name, m.goals, aset m.priorities g p⟩ := by
  obtain ⟨hgn, hpn, hkm⟩ := hwf
  refine ⟨hgn, ?_, ?_⟩
  · rw [akeys_aset]
    exact hpn
  · intro x
    rw [akeys_aset]
    exact hkm x

theorem alookup_snoc_self {β : Type} (l : List (String × β)) (g : String)
    (p : β) (h : alookup l g = none) :
    alookup (l ++ [(g, p)]) g = some p := by
  rw [alookup_append, h]
  simp [alookup]

theorem alookup_snoc_ne {β : Type} (l : List (String × β)) {g x : String}
    (p : β) (h : x ≠ g) :
    alookup (l ++ [(g, p)]) x = alookup l x := by
  rw [alookup_append]
  cases hl : alookup l x with
  | none =>
    have h2 : ¬ g = x := fun hh => h hh.symm
    simp [alookup, h2]
  | some v => simp

theorem RInv_mono {base : Int} {s0 : ModeOfEngagement} {P Q : String → Prop}
    {st : ModeOfEngagement × Option Int} (h : ∀ g, P g → Q g)
    (hinv : RInv base s0 P st) : RInv base s0 Q st := by
  obtain ⟨h1, h2, h3, h4⟩ := hinv
  refine ⟨h1, h2, ?_, h4⟩
  intro g p hp
  rcases h3 g p hp with hc | ⟨hn, hP, hb, hm⟩
  · exact Or.inl hc
  · exact Or.inr ⟨hn, h g hP, hb, hm⟩

theorem updateMax_ge_adjp (o : Option Int) (adjp : Int) :
    adjp ≤ updateMax o adjp := by
  cases o with
  | none => exact le_refl _
  | some mx =>
    rw [updateMax]
    split <;> omega

theorem updateMax_ge_old (o : Option Int) (adjp m0 : Int)
    (h : o = some m0) : m0 ≤ updateMax o adjp := by
  subst h
  rw [updateMax]
  split <;> omega

theorem synthGoal_step {base madj : Int} {moe : ModeOfEngagement}
    {gadj : List (String × Int)} {s0 : ModeOfEngagement}
    {P : String → Prop} {st st' : ModeOfEngagement × Option Int} {gn : String}
    (hwf0 : wfMoe s0)
    (hs0b : ∀ g p, alookup s0.priorities g = some p → p < base)
    (hmadj : 0 ≤ madj)
    (hpri : ∀ g p, alookup moe.priorities g = some p → 0 ≤ p)
    (hgadj : ∀ g a, alookup gadj g = some a → 0 ≤ a)
    (hinv : RInv base s0 P st)
    (h : synthGoal base madj moe gadj [] st gn = some st') :
    RInv base s0 (fun g => P g ∨ g = gn) st' ∧
    gn ∈ st'.1.goals ∧
    (∀ g, g ∈ st.1.goals → g ∈ st'.1.goals) ∧
    (∀ mx, st.2 = some mx → ∃ mx', st'.2 = some mx' ∧ mx ≤ mx') := by
  obtain ⟨hwf, hext, hval, hmax⟩ := hinv
  rw [synthGoal] at h
  simp only [alookup] at h
  cases hgp : moe.get_priority gn with
  | none => rw [hgp] at h; simp at h
  | some p =>
    cases hga : alookup gadj gn with
    | none => rw [hgp, hga] at h; simp at h
    | some ga =>
      rw [hgp, hga] at h
      dsimp only at h
      have hadjge : base ≤ base + p + madj + ga := by
        have h1 : 0 ≤ p := hpri gn p hgp
        have h2 : 0 ≤ ga := hgadj gn ga hga
        linarith
      have hnewmax : ∀ mx, st.2 = some mx →
          ∃ mx', some (updateMax st.2 (base + p + madj + ga)) = some mx' ∧
            mx ≤ mx' :=
        fun mx hmx => ⟨_, rfl, updateMax_ge_old _ _ mx hmx⟩
      have hmaxout : ∀ mx, some (updateMax st.2 (base + p + madj + ga)) =
          some mx → base ≤ mx := by
        intro mx hmx
        injection hmx with hmx
        subst hmx
        exact le_trans hadjge (updateMax_ge_adjp _ _)
      have hboundout : ∀ q, base ≤ q →
          (∃ mx1, st.2 = some mx1 ∧ q ≤ mx1) ∨ q = base + p + madj + ga →
          ∃ mx, some (updateMax st.2 (base + p + madj + ga)) = some mx ∧
            q ≤ mx := by
        rintro q _ (⟨mx1, hmx1, hle⟩ | rfl)
        · exact ⟨_, rfl, le_trans hle (updateMax_ge_old _ _ mx1 hmx1)⟩
        · exact ⟨_, rfl, updateMax_ge_adjp _ _⟩
      by_cases hc : st.1.goals.contains gn
      · rw [if_pos hc] at h
        cases hcur : st.1.get_priority gn with
        | none =>
          exfalso
          have hmem : gn ∈ akeys st.1.priorities :=
            (hwf.2.2 gn).mp (by simpa using hc)
          rw [ModeOfEngagement.get_priority] at hcur
          exact absurd hmem ((alookup_eq_none_iff _ _).mp hcur)
        | some cur =>
          rw [hcur] at h
          dsimp only at h
          have hcur' : alookup st.1.priorities gn = some cur := hcur
          by_cases hlt : base + p + madj + ga < cur
          · rw [if_pos hlt] at h
            have hamem : amem st.1.priorities gn = true := by
              simp [amem, hcur']
            rw [set_priority_eq _ _ _ hamem] at h
            dsimp only at h
            simp only [Option.some.injEq] at h
            subst h
            have hnew : alookup s0.priorities gn = none ∧ P gn ∧
                ∃ mx, st.2 = some mx := by
              rcases hval gn cur hcur' with hcs | ⟨ha, hb, _, mx, hmx, _⟩
              · exact absurd hlt (by have := hs0b gn cur hcs; linarith)
              · exact ⟨ha, hb, mx, hmx⟩
            obtain ⟨hs0n, hPgn, mx0, hmx0⟩ := hnew
            refine ⟨⟨wf_aset st.1 gn _ hwf, hext, ?_, hmaxout⟩,
              by simpa using hc, fun g hg => hg, hnewmax⟩
            intro g q hq
            by_cases hggn : g = gn
            · subst hggn
              rw [alookup_aset_self _ ((hwf.2.2 g).mp (by simpa using hc))]
                at hq
              injection hq with hq
              subst hq
              exact Or.inr ⟨hs0n, Or.inr rfl, hadjge,
                hboundout _ hadjge (Or.inr rfl)⟩
            · rw [alookup_aset_ne _ _ hggn] at hq
              rcases hval g q hq with hcs | ⟨hn1, hn2, hn3, mx1, hmx1, hn4⟩
              · exact Or.inl hcs
              · exact Or.inr ⟨hn1, Or.inl hn2, hn3,
                  hboundout _ hn3 (Or.inl ⟨mx1, hmx1, hn4⟩)⟩
          · rw [if_neg hlt] at h
            dsimp only at h
            simp only [Option.some.injEq] at h
            subst h
            refine ⟨⟨hwf, hext, ?_, hmaxout⟩, by simpa using hc,
              fun g hg => hg, hnewmax⟩
            intro g q hq
            rcases hval g q hq with hcs | ⟨hn1, hn2, hn3, mx1, hmx1, hn4⟩
            · exact Or.inl hcs
            · exact Or.inr ⟨hn1, Or.inl hn2, hn3,
                hboundout _ hn3 (Or.inl ⟨mx1, hmx1, hn4⟩)⟩
      · rw [if_neg hc] at h
        have hgnot : gn ∉ st.1.goals := by simpa using hc
        rw [add_goal_eq st.1 gn _ hwf hgnot] at h
        dsimp only at h
        simp only [Option.some.injEq] at h
        subst h
        have hs0n : alookup s0.priorities gn = none := by
          rw [alookup_eq_none_iff]
          intro hk
          exact hgnot (hext gn ((hwf0.2.2 gn).mpr hk))
        have hstn : alookup st.1.priorities gn = none := by
          rw [alookup_eq_none_iff]
          intro hk
          exact hgnot ((hwf.2.2 gn).mpr hk)
        refine ⟨⟨wf_add_goal st.1 gn _ hwf hgnot,
          fun g hg => List.mem_append.mpr (Or.inl (hext g hg)), ?_, hmaxout⟩,
          List.mem_append.mpr (Or.inr (List.mem_singleton.mpr rfl)),
          fun g hg => List.mem_append.mpr (Or.inl hg), hnewmax⟩
        intro g q hq
        by_cases hggn : g = gn
        · subst hggn
          rw [alookup_snoc_self _ _ _ hstn] at hq
          injection hq with hq
          subst hq
          exact Or.inr ⟨hs0n, Or.inr rfl, hadjge,
            hboundout _ hadjge (Or.inr rfl)⟩
        · rw [alookup_snoc_ne _ _ hggn] at hq
          rcases hval g q hq with hcs | ⟨hn1, hn2, hn3, mx1, hmx1, hn4⟩
          · exact Or.inl hcs
          · exact Or.inr ⟨hn1, Or.inl hn2, hn3,
              hboundout _ hn3 (Or.inl ⟨mx1, hmx1, hn4⟩)⟩

theorem synthGoals_step {base madj : Int} {moe : ModeOfEngagement}
    {gadj : List (String × Int)} {s0 : ModeOfEngagement}
    (hwf0 : wfMoe s0)
    (hs0b : ∀ g p, alookup s0.priorities g = some p → p < base)
    (hmadj : 0 ≤ madj)
    (hpri : ∀ g p, alookup moe.priorities g = some p → 0 ≤ p)
    (hgadj : ∀ g a, alookup gadj g = some a → 0 ≤ a) :
    ∀ (gl : List String) {P : String → Prop}
      {st st' : ModeOfEngagement × Option Int},
      RInv base s0 P st →
      synthGoals base madj moe gadj [] gl st = some st' →
      RInv base s0 (fun g => P g ∨ g ∈ gl) st' ∧
      (∀ g ∈ gl, g ∈ st'.1.goals) ∧
      (∀ g, g ∈ st.1.goals → g ∈ st'.1.goals) ∧
      (∀ mx, st.2 = some mx → ∃ mx', st'.2 = some mx' ∧ mx ≤ mx') := by
  intro gl
  induction gl with
  | nil =>
    intro P st st' hinv h
    rw [synthGoals] at h
    injection h with h
    subst h
    exact ⟨RInv_mono (fun g hg => Or.inl hg) hinv, by simp,
      fun g hg => hg, fun mx hmx => ⟨mx, hmx, le_refl _⟩⟩
  | cons gn rest ih =>
    intro P st st' hinv h
    rw [synthGoals] at h
    cases hg1 : synthGoal base madj moe gadj [] st gn with
    | none => rw [hg1] at h; simp at h
    | some st1 =>
      rw [hg1] at h
      dsimp only at h
      obtain ⟨hinv1, hgn1, hmono1, hmax1⟩ :=
        synthGoal_step hwf0 hs0b hmadj hpri hgadj hinv hg1
      obtain ⟨hinv2, hall2, hmono2, hmax2⟩ := ih hinv1 h
      refine ⟨RInv_mono ?_ hinv2, ?_, fun g hg => hmono2 g (hmono1 g hg), ?_⟩
      · intro g hg
        rcases hg with (hg | hg) | hg
        · exact Or.inl hg
        · exact Or.inr (hg ▸ List.mem_cons_self gn rest)
        · exact Or.inr (List.mem_cons_of_mem _ hg)
      · intro g hg
        rcases List.mem_cons.mp hg with rfl | hg
        · exact hmono2 g hgn1
        · exact hall2 g hg
      · intro mx hmx
        obtain ⟨mx1, hmx1, hle1⟩ := hmax1 mx hmx
        obtain ⟨mx2, hmx2, hle2⟩ := hmax2 mx1 hmx1
        exact ⟨mx2, hmx2, le_trans hle1 hle2⟩

theorem synthModes_step {base : Int} {modes : List (String × ModeOfEngagement)}
    {madjs gadj : List (String × Int)} {s0 : ModeOfEngagement}
    (hwf0 : wfMoe s0)
    (hs0b : ∀ g p, alookup s0.priorities g = some p → p < base)
    (Hpri : ∀ q ∈ modes, ∀ r ∈ q.2.priorities, 0 ≤ r.2)
    (Hmadj : ∀ q ∈ madjs, 0 ≤ q.2)
    (Hgadj : ∀ q ∈ gadj, 0 ≤ q.2) :
    ∀ (mns : List String) {P : String → Prop}
      {st st' : ModeOfEngagement × Option Int},
      RInv base s0 P st →
      synthModes base modes madjs gadj [] mns st = some st' →
      RInv base s0 (fun g => P g ∨ ∃ mn ∈ mns, ∃ m,
        alookup modes mn = some m ∧ g ∈ m.goals) st' ∧
      (∀ mn ∈ mns, ∀ m, alookup modes mn = some m →
        ∀ g ∈ m.goals, g ∈ st'.1.goals) ∧
      (∀ g, g ∈ st.1.goals → g ∈ st'.1.goals) ∧
      (∀ mx, st.2 = some mx → ∃ mx', st'.2 = some mx' ∧ mx ≤ mx') := by
  intro mns
  induction mns with
  | nil =>
    intro P st st' hinv h
    rw [synthModes] at h
    injection h with h
    subst h
    exact ⟨RInv_mono (fun g hg => Or.inl hg) hinv, by simp,
      fun g hg => hg, fun mx hmx => ⟨mx, hmx, le_refl _⟩⟩
  | cons mn rest ih =>
    intro P st st' hinv h
    rw [synthModes] at h
    cases halm : alookup modes mn with
    | none => rw [halm] at h; simp at h
    | some moem =>
      cases hala : alookup madjs mn with
      | none => rw [halm, hala] at h; simp at h
      | some madj =>
        rw [halm, hala] at h
        dsimp only at h
        cases hgs : synthGoals base madj moem gadj [] moem.goals st with
        | none => rw [hgs] at h; simp at h
        | some st1 =>
          rw [hgs] at h
          dsimp only at h
          have hmadj0 : 0 ≤ madj := Hmadj (mn, madj) (alookup_mem hala)
          have hpri_m : ∀ g p, alookup moem.priorities g = some p → 0 ≤ p :=
            fun g p hgp =>
              Hpri (mn, moem) (alookup_mem halm) (g, p) (alookup_mem hgp)
          have hgadj_m : ∀ g a, alookup gadj g = some a → 0 ≤ a :=
            fun g a ha => Hgadj (g, a) (alookup_mem ha)
          obtain ⟨hinv1, hall1, hmono1, hmax1⟩ :=
            synthGoals_step hwf0 hs0b hmadj0 hpri_m hgadj_m moem.goals hinv hgs
          obtain ⟨hinv2, hall2, hmono2, hmax2⟩ := ih hinv1 h
          refine ⟨RInv_mono ?_ hinv2, ?_, fun g hg => hmono2 g (hmono1 g hg), ?_⟩
          · intro g hg
            rcases hg with (hg | hg) | ⟨mn', hmn', m, hm, hgm⟩
            · exact Or.inl hg
            · exact Or.inr ⟨mn, List.mem_cons_self _ _, moem, halm, hg⟩
            · exact Or.inr ⟨mn', List.mem_cons_of_mem _ hmn', m, hm, hgm⟩
          · intro mn' hmn' m hm g hg
            rcases List.mem_cons.mp hmn' with rfl | hmn'
            · rw [halm] at hm
              injection hm with hm
              subst hm
              exact hmono2 g (hall1 g hg)
            · exact hall2 mn' hmn' m hm g hg
          · intro mx hmx
            obtain ⟨mx1, hmx1, hle1⟩ := hmax1 mx hmx
            obtain ⟨mx2, hmx2, hle2⟩ := hmax2 mx1 hmx1
            exact ⟨mx2, hmx2, le_trans hle1 hle2⟩

theorem mem_modes_here {ranking : List (String × Int)} {mr : Int} {mn : String}
    (h : mn ∈ (ranking.filter (fun p => p.2 = mr)).map Prod.fst) :
    (mn, mr) ∈ ranking := by
  obtain ⟨p, hp, hfst⟩ := List.mem_map.mp h
  obtain ⟨hp1, hp2⟩ := List.mem_filter.mp hp
  have h2 : p.2 = mr := by simpa using hp2
  have h3 : p = (mn, mr) := by
    obtain ⟨a, b⟩ := p
    simp only at hfst h2
    rw [hfst, h2]
  exact h3 ▸ hp1

theorem mem_modes_here_of {ranking : List (String × Int)} {mr : Int}
    {mn : String} (h : (mn, mr) ∈ ranking) :
    mn ∈ (ranking.filter (fun p => p.2 = mr)).map Prod.fst :=
  List.mem_map.mpr ⟨(mn, mr), List.mem_filter.mpr ⟨h, by simp⟩, rfl⟩

theorem synthRank_step {base : Int} {modes : List (String × ModeOfEngagement)}
    {ranking madjs gadj : List (String × Int)}
    {synth synth' : ModeOfEngagement} {base' : Int} {mr : Int}
    (hwf : wfMoe synth)
    (hb : ∀ g p, alookup synth.priorities g = some p → p < base)
    (Hpri : ∀ q ∈ modes, ∀ r ∈ q.2.priorities, 0 ≤ r.2)
    (Hmadj : ∀ q ∈ madjs, 0 ≤ q.2)
    (Hgadj : ∀ q ∈ gadj, 0 ≤ q.2)
    (h : synthRank modes ranking madjs gadj [] base synth mr =
      some (synth', base')) :
    wfMoe synth' ∧
    (∀ g, g ∈ synth.goals → g ∈ synth'.goals) ∧
    (∀ g p, alookup synth'.priorities g = some p → p < base') ∧
    base < base' ∧
    (∀ g p, alookup synth'.priorities g = some p →
      (alookup synth.priorities g = some p ∨
       (alookup synth.priorities g = none ∧ base ≤ p ∧
        ∃ mn m, (mn, mr) ∈ ranking ∧ alookup modes mn = some m ∧
          g ∈ m.goals))) ∧
    (∀ mn m, (mn, mr) ∈ ranking → alookup modes mn = some m →
      ∀ g ∈ m.goals, g ∈ synth'.goals) := by
  rw [synthRank] at h
  cases hsm : synthModes base modes madjs gadj []
      ((ranking.filter (fun p => p.2 = mr)).map Prod.fst) (synth, none) with
  | none => rw [hsm] at h; simp at h
  | some st1 =>
    rw [hsm] at h
    dsimp only at h
    cases hmx : st1.2 with
    | none => rw [hmx] at h; simp at h
    | some m =>
      rw [hmx] at h
      dsimp only at h
      simp only [Option.some.injEq, Prod.mk.injEq] at h
      obtain ⟨h1, h2⟩ := h
      have hinv0 : RInv base synth (fun _ => False) (synth, none) :=
        ⟨hwf, fun g hg => hg, fun g p hp => Or.inl hp, by simp⟩
      obtain ⟨hinv1, hpres1, hmono1, _⟩ :=
        synthModes_step hwf hb Hpri Hmadj Hgadj _ hinv0 hsm
      obtain ⟨hwf1, hext1, hval1, hmax1⟩ := hinv1
      have hbm : base ≤ m := hmax1 m hmx
      refine ⟨h1 ▸ hwf1, ?_, ?_, ?_, ?_, ?_⟩
      · intro g hg
        rw [← h1]
        exact hmono1 g hg
      · intro g p hp
        rw [← h1] at hp
        rcases hval1 g p hp with hc | ⟨_, _, _, mx, hmx2, hle⟩
        · have := hb g p hc
          omega
        · rw [hmx] at hmx2
          injection hmx2 with hmx2
          subst hmx2
          omega
      · omega
      · intro g p hp
        rw [← h1] at hp
        rcases hval1 g p hp with hc | ⟨hn, hP, hbp, _⟩
        · exact Or.inl hc
        · rcases hP with hF | ⟨mn, hmn, mm, hmm, hgm⟩
          · exact absurd hF id
          · exact Or.inr ⟨hn, hbp, mn, mm, mem_modes_here hmn, hmm, hgm⟩
      · intro mn mm hrk hmo g hg
        rw [← h1]
        exact hpres1 mn (mem_modes_here_of hrk) mm hmo g hg

theorem synthRanks_step {modes : List (String × ModeOfEngagement)}
    {ranking madjs gadj : List (String × Int)}
    (Hpri : ∀ q ∈ modes, ∀ r ∈ q.2.priorities, 0 ≤ r.2)
    (Hmadj : ∀ q ∈ madjs, 0 ≤ q.2)
    (Hgadj : ∀ q ∈ gadj, 0 ≤ q.2) :
    ∀ (RL : List Int) (base : Int) (synth moe : ModeOfEngagement) (bF : Int),
      wfMoe synth →
      (∀ g p, alookup synth.priorities g = some p → p < base) →
      synthRanks modes ranking madjs gadj [] RL base synth = some (moe, bF) →
      wfMoe moe ∧
      (∀ g, g ∈ synth.goals → g ∈ moe.goals) ∧
      (∀ g p, alookup moe.priorities g = some p → p < bF) ∧
      base ≤ bF ∧
      (∀ g p, alookup moe.priorities g = some p →
        (alookup synth.priorities g = some p ∨
         (alookup synth.priorities g = none ∧ base ≤ p ∧
          ∃ r ∈ RL, ∃ mn m, (mn, r) ∈ ranking ∧ alookup modes mn = some m ∧
            g ∈ m.goals))) ∧
      (∀ r ∈ RL, ∀ mn m, (mn, r) ∈ ranking → alookup modes mn = some m →
        ∀ g ∈ m.goals, g ∈ moe.goals) := by
  intro RL
  induction RL with
  | nil =>
    intro base synth moe bF hwf hb h
    rw [synthRanks] at h
    simp only [Option.some.injEq, Prod.mk.injEq] at h
    obtain ⟨h1, h2⟩ := h
    subst h1
    subst h2
    exact ⟨hwf, fun g hg => hg, hb, le_refl _, fun g p hp => Or.inl hp,
      by simp⟩
  | cons mr rest ih =>
    intro base synth moe bF hwf hb h
    rw [synthRanks] at h
    cases hr1 : synthRank modes ranking madjs gadj [] base synth mr with
    | none => rw [hr1] at h; simp at h
    | some sb =>
      obtain ⟨s1, b1⟩ := sb
      rw [hr1] at h
      dsimp only at h
      obtain ⟨hwf1, hmono1, hinv1, hbb1, hprov1, hpres1⟩ :=
        synthRank_step hwf hb Hpri Hmadj Hgadj hr1
      obtain ⟨hwf2, hmono2, hinv2, hbb2, hprov2, hpres2⟩ :=
        ih b1 s1 moe bF hwf1 hinv1 h
      refine ⟨hwf2, fun g hg => hmono2 g (hmono1 g hg), hinv2,
        le_trans (le_of_lt hbb1) hbb2, ?_, ?_⟩
      · intro g p hp
        rcases hprov2 g p hp with hc1 | ⟨hn1, hb1', r, hrmem, prov⟩
        · rcases hprov1 g p hc1 with hc2 | ⟨hn2, hb2', mn, m, hprv⟩
          · exact Or.inl hc2
          · exact Or.inr ⟨hn2, hb2', mr, List.mem_cons_self _ _, mn, m, hprv⟩
        · have hgs : alookup synth.priorities g = none := by
            rw [alookup_eq_none_iff]
            intro hk
            have hg1 : g ∈ s1.goals := hmono1 g ((hwf.2.2 g).mpr hk)
            have hg2 : g ∈ akeys s1.priorities := (hwf1.2.2 g).mp hg1
            exact absurd hg2 ((alookup_eq_none_iff _ _).mp hn1)
          exact Or.inr ⟨hgs, le_trans (le_of_lt hbb1) hb1',
            r, List.mem_cons_of_mem _ hrmem, prov⟩
      · intro r hrm mn m hrk hmo g hg
        rcases List.mem_cons.mp hrm with rfl | hrm
        · exact hmono2 g (hpres1 mn m hrk hmo g hg)
        · exact hpres2 r hrm mn m hrk hmo g hg

theorem sorted_nodup_split :
    ∀ (l : List Int), l.Pairwise (· ≤ ·) → l.Nodup → ∀ r ∈ l,
      ∃ L1 L2, l = L1 ++ r :: L2 ∧ (∀ x ∈ L1, x < r) ∧
        (∀ x ∈ L2, r < x) := by
  intro l
  induction l with
  | nil => simp
  | cons a t ih =>
    intro hs hn r hr
    rcases List.mem_cons.mp hr with rfl | hr2
    · refine ⟨[], t, rfl, by simp, ?_⟩
      intro x hx
      have h1 : r ≤ x := (List.pairwise_cons.mp hs).1 x hx
      have h2 : r ≠ x := by
        intro hh
        exact (List.nodup_cons.mp hn).1 (hh ▸ hx)
      exact lt_of_le_of_ne h1 h2
    · obtain ⟨L1, L2, heq, hl1, hl2⟩ := ih (List.pairwise_cons.mp hs).2
        (List.nodup_cons.mp hn).2 r hr2
      refine ⟨a :: L1, L2, by rw [List.cons_append, heq], ?_, hl2⟩
      intro x hx
      rcases List.mem_cons.mp hx with rfl | hx2
      · have h1 : x ≤ r := (List.pairwise_cons.mp hs).1 r hr2
        have h2 : x ≠ r := fun hh => (List.nodup_cons.mp hn).1 (hh ▸ hr2)
        exact lt_of_le_of_ne h1 h2
      · exact hl1 x hx2

theorem synthRanks_append {modes : List (String × ModeOfEngagement)}
    {ranking madjs gadj gover : List (String × Int)} :
    ∀ (A B : List Int) (base : Int) (synth : ModeOfEngagement),
      synthRanks modes ranking madjs gadj gover (A ++ B) base synth =
        match synthRanks modes ranking madjs gadj gover A base synth with
        | none => none
        | some (s, b) => synthRanks modes ranking madjs gadj gover B b s := by
  intro A
  induction A with
  | nil =>
    intro B base synth
    rfl
  | cons mr rest ih =>
    intro B base synth
    rw [List.cons_append, synthRanks, synthRanks]
    cases hr : synthRank modes ranking madjs gadj gover base synth mr with
    | none => rfl
    | some sb =>
      obtain ⟨sx, bx⟩ := sb
      dsimp only
      exact ih B bx sx

/-! ### Claim C7 -/

/-- C7 (corrected): in `_synthesize_moe`, provided no goal has an
absolute override and all mode priorities, mode adjustments and goal
adjustments are nonnegative, every goal contributed by a mode at a
strictly higher (smaller-numbered) rank receives a strictly smaller
synthesized priority than every goal contributed only by modes at lower
ranks: the base advances past the maximum candidate priority of each rank
before the next rank is processed.  With a negative adjustment (or an
override) the separation fails — see the counterexample. -/
theorem C7_rank_separation {modes : List (String × ModeOfEngagement)}
    {ranking madjs gadj : List (String × Int)} {pname : String}
    {moe m1 : ModeOfEngagement} {g1 g2 mn1 : String} {r1 : Int}
    (Hpri : ∀ q ∈ modes, ∀ r ∈ q.2.priorities, 0 ≤ r.2)
    (Hmadj : ∀ q ∈ madjs, 0 ≤ q.2)
    (Hgadj : ∀ q ∈ gadj, 0 ≤ q.2)
    (Hrnd : (akeys ranking).Nodup)
    (Hmnd : (akeys modes).Nodup)
    (hm1r : alookup ranking mn1 = some r1)
    (hm1l : alookup modes mn1 = some m1)
    (hg1in : g1 ∈ m1.goals)
    (hg2low : ∀ p ∈ ranking, ∀ q ∈ modes, p.1 = q.1 →
      g2 ∈ q.2.goals → r1 < p.2)
    (hg2in : ∃ p ∈ ranking, ∃ q ∈ modes, p.1 = q.1 ∧ g2 ∈ q.2.goals)
    (hsucc : synthesize_moe pname modes ranking madjs gadj [] = some moe) :
    ∃ p1 p2, alookup moe.priorities g1 = some p1 ∧
      alookup moe.priorities g2 = some p2 ∧ p1 < p2 := by
  rw [synthesize_moe] at hsucc
  cases hrun : synthRanks modes ranking madjs gadj []
      (((ranking.map Prod.snd).dedup).insertionSort (· ≤ ·)) 0
      ⟨pname ++ "-synthesized", [], []⟩ with
  | none => rw [hrun] at hsucc; simp at hsucc
  | some mb =>
    obtain ⟨mF, bF⟩ := mb
    rw [hrun] at hsucc
    simp only [Option.map_some', Option.some.injEq] at hsucc
    subst hsucc
    -- facts about the rank list
    have hsorted : (((ranking.map Prod.snd).dedup).insertionSort
        (· ≤ ·)).Pairwise (· ≤ ·) :=
      List.sorted_insertionSort (· ≤ ·) ((ranking.map Prod.snd).dedup)
    have hnodup : (((ranking.map Prod.snd).dedup).insertionSort
        (· ≤ ·)).Nodup :=
      (List.perm_insertionSort (· ≤ ·)
        ((ranking.map Prod.snd).dedup)).symm.nodup
        (List.nodup_dedup (ranking.map Prod.snd))
    have hmemranks : ∀ r : Int, (∃ mn, (mn, r) ∈ ranking) →
        r ∈ ((ranking.map Prod.snd).dedup).insertionSort (· ≤ ·) := by
      intro r ⟨mn, hmn⟩
      rw [List.mem_insertionSort, List.mem_dedup]
      exact List.mem_map.mpr ⟨(mn, r), hmn, rfl⟩
    have hr1mem : r1 ∈ ((ranking.map Prod.snd).dedup).insertionSort
        (· ≤ ·) := hmemranks r1 ⟨mn1, alookup_mem hm1r⟩
    obtain ⟨L1, L2, hsplit, hL1, hL2⟩ :=
      sorted_nodup_split _ hsorted hnodup r1 hr1mem
    rw [hsplit] at hrun
    rw [synthRanks_append] at hrun
    -- the empty starting mode
    have hwf0 : wfMoe ⟨pname ++ "-synthesized", [], []⟩ := by
      refine ⟨List.nodup_nil, List.nodup_nil, ?_⟩
      intro g
      simp [akeys]
    have hb0 : ∀ g p,
        alookup (⟨pname ++ "-synthesized", [], []⟩ :
          ModeOfEngagement).priorities g = some p → p < 0 := by
      intro g p hp
      simp [alookup] at hp
    cases hA : synthRanks modes ranking madjs gadj [] L1 0
        ⟨pname ++ "-synthesized", [], []⟩ with
    | none => rw [hA] at hrun; simp at hrun
    | some sA =>
      obtain ⟨sA1, bA⟩ := sA
      rw [hA] at hrun
      dsimp only at hrun
      obtain ⟨hwfA, hmonoA, hinvA, hbA, hprovA, hpresA⟩ :=
        synthRanks_step Hpri Hmadj Hgadj L1 0 _ sA1 bA hwf0 hb0 hA
      -- g2 is absent after the ranks before r1
      have hg2A : alookup sA1.priorities g2 = none := by
        cases hlg2 : alookup sA1.priorities g2 with
        | none => rfl
        | some p =>
          exfalso
          rcases hprovA g2 p hlg2 with hc | ⟨_, _, r, hrL1, mn, m, hrk, hmo,
              hgm⟩
          · simp [alookup] at hc
          · have := hg2low (mn, r) hrk (mn, m) (alookup_mem hmo) rfl hgm
            have := hL1 r hrL1
            omega
      -- the rank r1 itself
      rw [synthRanks] at hrun
      cases hB : synthRank modes ranking madjs gadj [] bA sA1 r1 with
      | none => rw [hB] at hrun; simp at hrun
      | some sb =>
        obtain ⟨sB, bB⟩ := sb
        rw [hB] at hrun
        dsimp only at hrun
        obtain ⟨hwfB, hmonoB, hinvB, hbB, hprovB, hpresB⟩ :=
          synthRank_step hwfA hinvA Hpri Hmadj Hgadj hB
        have hg1B : g1 ∈ sB.goals :=
          hpresB mn1 m1 (alookup_mem hm1r) hm1l g1 hg1in
        obtain ⟨p1, hp1⟩ : ∃ p1, alookup sB.priorities g1 = some p1 := by
          have hk : g1 ∈ akeys sB.priorities := (hwfB.2.2 g1).mp hg1B
          cases hl : alookup sB.priorities g1 with
          | none => exact absurd hk ((alookup_eq_none_iff _ _).mp hl)
          | some p => exact ⟨p, rfl⟩
        have hp1b : p1 < bB := hinvB g1 p1 hp1
        have hg2B : alookup sB.priorities g2 = none := by
          cases hlg2 : alookup sB.priorities g2 with
          | none => rfl
          | some p =>
            exfalso
            rcases hprovB g2 p hlg2 with hc | ⟨_, _, mn, m, hrk, hmo, hgm⟩
            · rw [hg2A] at hc
              exact absurd hc (by simp)
            · have := hg2low (mn, r1) hrk (mn, m) (alookup_mem hmo) rfl hgm
              omega
        -- the remaining ranks
        obtain ⟨hwfF, hmonoF, hinvF, hbF, hprovF, hpresF⟩ :=
          synthRanks_step Hpri Hmadj Hgadj L2 bB sB mF bF hwfB hinvB hrun
        -- g1 keeps its value
        obtain ⟨pf, hpf⟩ : ∃ pf, alookup mF.priorities g1 = some pf := by
          have hk : g1 ∈ akeys mF.priorities :=
            (hwfF.2.2 g1).mp (hmonoF g1 hg1B)
          cases hl : alookup mF.priorities g1 with
          | none => exact absurd hk ((alookup_eq_none_iff _ _).mp hl)
          | some p => exact ⟨p, rfl⟩
        have hpf1 : pf = p1 := by
          rcases hprovF g1 pf hpf with hc | ⟨hn, _, _⟩
          · rw [hp1] at hc
            injection hc with hc
            exact hc.symm
          · rw [hp1] at hn
            exact absurd hn (by simp)
        -- g2 gets a value at some rank in L2
        obtain ⟨pr, hprr, qm, hqm, hpq, hg2goals⟩ := hg2in
        obtain ⟨mn2, rm⟩ := pr
        obtain ⟨mn2', m2⟩ := qm
        simp only at hpq
        subst hpq
        have hrm2 : alookup ranking mn2 = some rm :=
          alookup_eq_of_mem_nodup Hrnd hprr
        have hmo2 : alookup modes mn2 = some m2 :=
          alookup_eq_of_mem_nodup Hmnd hqm
        have hr1rm : r1 < rm := hg2low (mn2, rm) hprr (mn2, m2) hqm rfl
          hg2goals
        have hrmmem : rm ∈ ((ranking.map Prod.snd).dedup).insertionSort
            (· ≤ ·) := hmemranks rm ⟨mn2, hprr⟩
        have hrmL2 : rm ∈ L2 := by
          rw [hsplit] at hrmmem
          rcases List.mem_append.mp hrmmem with hx | hx
          · have := hL1 rm hx
            omega
          · rcases List.mem_cons.mp hx with rfl | hx
            · omega
            · exact hx
        have hg2F : g2 ∈ mF.goals :=
          hpresF rm hrmL2 mn2 m2 hprr hmo2 g2 hg2goals
        obtain ⟨p2, hp2⟩ : ∃ p2, alookup mF.priorities g2 = some p2 := by
          have hk : g2 ∈ akeys mF.priorities := (hwfF.2.2 g2).mp hg2F
          cases hl : alookup mF.priorities g2 with
          | none => exact absurd hk ((alookup_eq_none_iff _ _).mp hl)
          | some p => exact ⟨p, rfl⟩
        have hp2b : bB ≤ p2 := by
          rcases hprovF g2 p2 hp2 with hc | ⟨_, hb2, _⟩
          · rw [hg2B] at hc
            exact absurd hc (by simp)
          · exact hb2
        refine ⟨p1, p2, ?_, hp2, ?_⟩
        · rw [← hpf1]
          exact hpf
        · omega

/-- C7 witness: the separation theorem applied to two single-goal modes
at ranks 1 and 2 with zero adjustments and no overrides: the rank-1 goal
gets priority 5 and the rank-2 goal 11. -/
theorem C7_rank_separation_witness :
    ∃ p1 p2, alookup (⟨"p-synthesized", ["g1", "g2"],
        [("g1", 5), ("g2", 11)]⟩ : ModeOfEngagement).priorities "g1" =
          some p1 ∧
      alookup (⟨"p-synthesized", ["g1", "g2"],
        [("g1", 5), ("g2", 11)]⟩ : ModeOfEngagement).priorities "g2" =
          some p2 ∧
      p1 < p2 :=
  @C7_rank_separation
    [("A", ⟨"A", ["g1"], [("g1", 5)]⟩), ("B", ⟨"B", ["g2"], [("g2", 5)]⟩)]
    [("A", 1), ("B", 2)] [("A", 0), ("B", 0)] [("g1", 0), ("g2", 0)] "p"
    ⟨"p-synthesized", ["g1", "g2"], [("g1", 5), ("g2", 11)]⟩
    ⟨"A", ["g1"], [("g1", 5)]⟩ "g1" "g2" "A" 1
    (by decide) (by decide) (by decide) (by decide) (by decide)
    rfl rfl (by decide) (by decide) (by decide) rfl

/-- C7 counterexample: with a negative goal adjustment (-10 on the
rank-2 goal g2), the rank-2 goal's candidate 6 + 5 + 0 - 10 = 1 undercuts
the rank-1 goal's priority 5, so the claimed strict separation between
ranks fails as stated (the claim has no nonnegativity restriction). -/
theorem C7_negative_adjustment_counterexample :
    synthesize_moe "p"
      [("A", ⟨"A", ["g1"], [("g1", 5)]⟩), ("B", ⟨"B", ["g2"], [("g2", 5)]⟩)]
      [("A", 1), ("B", 2)] [("A", 0), ("B", 0)] [("g1", 0), ("g2", -10)] []
      = some ⟨"p-synthesized", ["g1", "g2"], [("g1", 5), ("g2", 1)]⟩ ∧
    ¬((5 : Int) < 1) :=
  ⟨rfl, by decide⟩

end PDM